import Mathlib

set_option maxRecDepth 8000

/-!
Verification development for the extraction-and-presentation pipeline of the
FastTrackTools MCP server.  JavaScript strings are modelled as `List Char`;
JavaScript objects are modelled as association lists in enumeration order
(`JRecord`); JavaScript values flowing through the pipeline are modelled by
the inductive `Jv` (with `vundef` for `undefined`).  Each definition is a
shallow embedding of the correspondingly named function of the source.
-/

abbrev Str := List Char

def lowerStr (s : Str) : Str := s.map Char.toLower

def quoteChar : Char := Char.ofNat 34

def lbrace : Char := Char.ofNat 123

def rbrace : Char := Char.ofNat 125

/-- Decimal digits of a natural number, most significant first. -/
def natDigitsTo (n : Nat) (acc : List Char) : List Char :=
  if n < 10 then Char.ofNat (48 + n) :: acc
  else natDigitsTo (n / 10) (Char.ofNat (48 + n % 10) :: acc)
termination_by n
decreasing_by omega

def natStr (n : Nat) : Str := natDigitsTo n []

/-- Decimal rendering of an integer, as JavaScript `String(n)` renders an
integral number. -/
def intStr (n : Int) : Str :=
  if n < 0 then '-' :: natStr n.natAbs else natStr n.natAbs

/-- JavaScript `l.includes(pat)`: `pat` occurs as a contiguous substring. -/
def isSubstr (pat : Str) : Str → Bool
  | [] => pat.isPrefixOf []
  | c :: rest => pat.isPrefixOf (c :: rest) || isSubstr pat rest

/-- Join a list of strings with a separator, as JavaScript `Array.join`. -/
def joinSep (sep : Str) : List Str → Str
  | [] => []
  | [s] => s
  | s :: rest => s ++ sep ++ joinSep sep rest

/-- JavaScript values: `undefined`, `null`, booleans, (integral) numbers,
strings, arrays and plain objects.  Object fields are listed in JavaScript
property-enumeration order. -/
inductive Jv where
  | vundef : Jv
  | vnull : Jv
  | vbool : Bool → Jv
  | vnum : Int → Jv
  | vstr : Str → Jv
  | varr : List Jv → Jv
  | vobj : List (Str × Jv) → Jv

instance : Inhabited Jv := ⟨Jv.vundef⟩

/-- A normalized record: a JavaScript object, field name to value. -/
abbrev JRecord := List (Str × Jv)

def hex4 (n : Nat) : Str :=
  let d := fun (k : Nat) => Char.ofNat (if k < 10 then 48 + k else 87 + k)
  [d (n / 4096 % 16), d (n / 256 % 16), d (n / 16 % 16), d (n % 16)]

/-- One character of `QuoteJSONString` (ECMA-262), as used by
`JSON.stringify` for string values and property names. -/
def escJsonChar (c : Char) : Str :=
  if c = quoteChar then ['\\', quoteChar]
  else if c = '\\' then ['\\', '\\']
  else if c = Char.ofNat 8 then ['\\', 'b']
  else if c = Char.ofNat 12 then ['\\', 'f']
  else if c = '\n' then ['\\', 'n']
  else if c = '\r' then ['\\', 'r']
  else if c = '\t' then ['\\', 't']
  else if c.toNat < 32 then '\\' :: 'u' :: hex4 c.toNat
  else [c]

def quoteJson (s : Str) : Str := quoteChar :: (s.flatMap escJsonChar) ++ [quoteChar]

def gap2 : Str := (" ").toList ++ (" ").toList

def wrapArr (sb : Str) (parts : List Str) : Str :=
  if parts = [] then ('[' :: [']'])
  else '[' :: '\n' :: (sb ++ gap2) ++ joinSep (',' :: '\n' :: (sb ++ gap2)) parts
    ++ '\n' :: sb ++ [']']

def wrapObj (sb : Str) (parts : List Str) : Str :=
  if parts = [] then [lbrace, rbrace]
  else lbrace :: '\n' :: (sb ++ gap2) ++ joinSep (',' :: '\n' :: (sb ++ gap2)) parts
    ++ '\n' :: sb ++ [rbrace]

mutual

/-- `JSON.stringify(v, null, 2)` with current step-back indentation `sb`;
`none` when serialization yields `undefined` (for `Jv.vundef`). -/
def serVal (sb : Str) : Jv → Option Str
  | .vundef => none
  | .vnull => some (("null").toList)
  | .vbool b => some (if b then ("true").toList else ("false").toList)
  | .vnum n => some (intStr n)
  | .vstr s => some (quoteJson s)
  | .varr es => some (wrapArr sb (serElems (sb ++ gap2) es))
  | .vobj fs => some (wrapObj sb (serMembers (sb ++ gap2) fs))

def serElems (ind : Str) : List Jv → List Str
  | [] => []
  | v :: vs => ((serVal ind v).getD (("null").toList)) :: serElems ind vs

/-- Serialized object members, pretty mode: members whose value serializes
to `undefined` are skipped. -/
def serMembers (ind : Str) : List (Str × Jv) → List Str
  | [] => []
  | kv :: fs =>
    match serVal ind kv.2 with
    | some s => (quoteJson kv.1 ++ (": ").toList ++ s) :: serMembers ind fs
    | none => serMembers ind fs

end

mutual

/-- Compact `JSON.stringify(v)` (no gap), used for nested values inside the
csv/markdown/key-value renderers. -/
def serValC : Jv → Option Str
  | .vundef => none
  | .vnull => some (("null").toList)
  | .vbool b => some (if b then ("true").toList else ("false").toList)
  | .vnum n => some (intStr n)
  | .vstr s => some (quoteJson s)
  | .varr es => some ('[' :: joinSep [','] (serElemsC es) ++ [']'])
  | .vobj fs => some (lbrace :: joinSep [','] (serMembersC fs) ++ [rbrace])

def serElemsC : List Jv → List Str
  | [] => []
  | v :: vs => ((serValC v).getD (("null").toList)) :: serElemsC vs

def serMembersC : List (Str × Jv) → List Str
  | [] => []
  | kv :: fs =>
    match serValC kv.2 with
    | some s => (quoteJson kv.1 ++ [':'] ++ s) :: serMembersC fs
    | none => serMembersC fs

end

/-! ## Output formatter (src/utils/outputFormatter.ts) -/

inductive OutFormat where
  | json | markdown | summary | keyValue | csv
deriving DecidableEq

def formatName : OutFormat → Str
  | .json => ("json").toList
  | .markdown => ("markdown").toList
  | .summary => ("summary").toList
  | .keyValue => ("key-value").toList
  | .csv => ("csv").toList

def assocGet {κ α : Type} [DecidableEq κ] (k : κ) : List (κ × α) → Option α
  | [] => none
  | kv :: rest => if kv.1 = k then some kv.2 else assocGet k rest

/-- `TARGET_TOOL_FORMAT_MAP`: target tool names to preferred input format. -/
def targetToolFormatMap : List (String × OutFormat) :=
  [ ("add_customer", .json),
    ("update_customer_status", .json),
    ("add_environment", .json),
    ("add_checklist_item", .json),
    ("update_checklist_item", .json),
    ("search_best_practices", .markdown),
    ("get_implementation_checklist", .markdown),
    ("get_customer", .keyValue),
    ("list_customers", .csv),
    ("get_environments", .csv),
    ("validate_environment_readiness", .summary) ]

/-- `TARGET_TOOL_FIELDS`: fields expected by write-target tools. -/
def targetToolFields : List (String × List Str) :=
  [ ("add_customer",
      [("name").toList, ("industry").toList, ("region").toList,
       ("engagementType").toList, ("d365Modules").toList,
       ("goLiveDate").toList, ("assignedArchitect").toList]),
    ("add_environment",
      [("customerId").toList, ("name").toList, ("type").toList,
       ("region").toList, ("version").toList, ("lcsProjectId").toList,
       ("url").toList]),
    ("add_checklist_item",
      [("customerId").toList, ("phase").toList, ("category").toList,
       ("title").toList, ("description").toList, ("owner").toList,
       ("dueDate").toList]),
    ("update_customer_status",
      [("customerId").toList, ("status").toList, ("notes").toList]),
    ("update_checklist_item",
      [("customerId").toList, ("itemId").toList, ("status").toList,
       ("notes").toList]) ]

structure Metadata where
  source : Str
  extractedAt : Str
  outputFormat : OutFormat
  recordCount : Nat
  warnings : Option (List Str) := none
  targetTool : Option Str := none

structure ExtractionResult where
  metadata : Metadata
  records : List JRecord
  fieldHints : Option (List (Str × Str)) := none

mutual

/-- `OutputFormatter.getMaxDepth`: `null`, non-objects and arrays are leaves
returning the running depth; for an object, the max over its values at
depth + 1 (the running depth when the object is empty). -/
def getMaxDepth : Jv → Nat → Nat
  | .vobj fields, depth => getMaxDepthList fields depth depth
  | _, depth => depth

def getMaxDepthList : List (Str × Jv) → Nat → Nat → Nat
  | [], _, m => m
  | kv :: rest, depth, m =>
    getMaxDepthList rest depth (max m (getMaxDepth kv.2 (depth + 1)))

end

/-- `typeof v !== "object" || v === null || Array.isArray(v)`: the test by
which `detectFormatFromData` counts a value as flat. -/
def jsIsFlatVal : Jv → Bool
  | .vobj _ => false
  | _ => true

/-- `typeof v === "string" && v.length > 200`. -/
def hasLongStrVal : Jv → Bool
  | .vstr s => decide (s.length > 200)
  | _ => false

/-- `OutputFormatter.detectFormatFromData`: the data-shape heuristic. -/
def detectFormatFromData : List JRecord → OutFormat
  | [] => .json
  | [r] => if getMaxDepth (.vobj r) 0 > 2 then .json else .keyValue
  | r1 :: r2 :: rest =>
    let records := r1 :: r2 :: rest
    let allFlat := records.all (fun r => r.all (fun kv => jsIsFlatVal kv.2))
    if allFlat && decide (records.length > 3) then .csv
    else if records.any (fun r => r.any (fun kv => hasLongStrVal kv.2)) then .markdown
    else .json

/-- `OutputFormatter.resolveFormat`: explicit override, then target-tool
table, then the data-shape heuristic. -/
def resolveFormat (result : ExtractionResult) (explicitFormat : Option OutFormat)
    (targetTool : Option String) : OutFormat :=
  match explicitFormat with
  | some f => f
  | none =>
    match targetTool.bind (fun t => assocGet t targetToolFormatMap) with
    | some f => f
    | none => detectFormatFromData result.records

/-- JavaScript property read `r[k]`: `undefined` when the key is absent. -/
def lookupKey (r : JRecord) (k : Str) : Jv :=
  ((r.find? (fun kv => kv.1 = k)).map Prod.snd).getD (Jv.vundef)

/-- JavaScript property write `m[k] = v`: overwrite in place when the key
exists, append otherwise. -/
def setKey (m : JRecord) (k : Str) (v : Jv) : JRecord :=
  if m.any (fun kv => kv.1 = k) then
    m.map (fun kv => if kv.1 = k then (k, v) else kv)
  else m ++ [(k, v)]

/-- The loop body of `mapFieldsToTarget`: for each expected field, first a
case-insensitive exact key match, then a case-insensitive containment match
in either direction, else an `undefined` entry. -/
def mapFieldsLoop (src : JRecord) : List Str → JRecord → JRecord
  | [], mapped => mapped
  | expected :: rest, mapped =>
    match src.find? (fun kv => lowerStr kv.1 = lowerStr expected) with
    | some kv => mapFieldsLoop src rest (setKey mapped expected kv.2)
    | none =>
      match src.find? (fun kv =>
          isSubstr (lowerStr expected) (lowerStr kv.1)
            || isSubstr (lowerStr kv.1) (lowerStr expected)) with
      | some kv => mapFieldsLoop src rest (setKey mapped expected kv.2)
      | none => mapFieldsLoop src rest (setKey mapped expected .vundef)

/-- `OutputFormatter.mapFieldsToTarget`. -/
def mapFieldsToTarget (records : List JRecord) (targetTool : String) : Option JRecord :=
  match assocGet targetTool targetToolFields with
  | none => none
  | some expectedFields =>
    match records with
    | [] => none
    | sourceRecord :: _ => some (mapFieldsLoop sourceRecord expectedFields [])

/-- The `metadata` object as it appears in the rendered JSON envelope. -/
def metadataJv (md : Metadata) : Jv :=
  .vobj ([ (("source").toList, .vstr md.source),
      (("extractedAt").toList, .vstr md.extractedAt),
      (("outputFormat").toList, .vstr (formatName md.outputFormat)),
      (("recordCount").toList, .vnum md.recordCount) ]
    ++ (match md.warnings with
        | some ws => [(("warnings").toList, .varr (ws.map .vstr))]
        | none => [])
    ++ (match md.targetTool with
        | some t => [(("targetTool").toList, .vstr t)]
        | none => []))

/-- `OutputFormatter.renderJson`: `JSON.stringify` of `{metadata, records}`,
plus `mappedFields` when a mapping was computed. -/
def renderJson (result : ExtractionResult) (mappedFields : Option JRecord) : Str :=
  let fields := [ (("metadata").toList, metadataJv result.metadata),
      (("records").toList, .varr (result.records.map .vobj)) ]
    ++ (match mappedFields with
        | some m => [(("mappedFields").toList, .vobj m)]
        | none => [])
  (serVal [] (.vobj fields)).getD []

def addKeys : JRecord → List Str → List Str
  | [], acc => acc
  | kv :: kvs, acc => addKeys kvs (if acc.contains kv.1 then acc else acc ++ [kv.1])

/-- Union of all field names across records, in first-seen order. -/
def collectKeys : List JRecord → List Str → List Str
  | [], acc => acc
  | r :: rest, acc => collectKeys rest (addKeys r acc)

/-- CSV escaping: wrap in double quotes (doubling inner quotes) when the
value contains a comma, a quote or a newline. -/
def csvEscape (s : Str) : Str :=
  if s.contains ',' || s.contains quoteChar || s.contains '\n' then
    quoteChar :: (s.flatMap (fun c => if c = quoteChar then [quoteChar, quoteChar] else [c]))
      ++ [quoteChar]
  else s

/-- One csv cell: empty for `undefined`/`null`, compact JSON for objects and
arrays, `String(val)` otherwise, then csv-escaped. -/
def csvCell (r : JRecord) (h : Str) : Str :=
  match lookupKey r h with
  | .vundef => []
  | .vnull => []
  | .vobj fs => csvEscape ((serValC (.vobj fs)).getD [])
  | .varr es => csvEscape ((serValC (.varr es)).getD [])
  | .vstr s => csvEscape s
  | .vnum n => csvEscape (intStr n)
  | .vbool b => csvEscape (if b then ("true").toList else ("false").toList)

/-- `OutputFormatter.renderCsv`. -/
def renderCsv (result : ExtractionResult) : Str :=
  match result.records with
  | [] =>
    ("# source: ").toList ++ result.metadata.source
      ++ (" | records: 0\n(no data)").toList
  | r :: rest =>
    let records := r :: rest
    let headers := collectKeys records []
    let comment := ("# source: ").toList ++ result.metadata.source
      ++ (" | extractedAt: ").toList ++ result.metadata.extractedAt
      ++ (" | records: ").toList ++ natStr result.metadata.recordCount
    let rows := records.map (fun rec => joinSep [','] (headers.map (csvCell rec)))
    joinSep ['\n'] (comment :: joinSep [','] headers :: rows)

/-! ## Spec-side definition for the depth heuristic

Modelled from the spec: "a non-object/non-array value has depth 0; depth of
an object is 1 plus the maximum depth of its own values; empty object has
depth 0" (arrays are leaves of depth 0, matching the array-as-leaf reading
confirmed by the spec's flatness test). -/

mutual

def specDepth : Jv → Nat
  | .vobj fields => specDepthList fields 0
  | _ => 0

def specDepthList : List (Str × Jv) → Nat → Nat
  | [], m => m
  | kv :: rest, m => specDepthList rest (max m (1 + specDepth kv.2))

end

/-- The quantity named by the claim: the maximum nesting depth over the
record's values (not of the record object itself). -/
def maxValDepth (r : JRecord) : Nat :=
  r.foldl (fun m kv => max m (specDepth kv.2)) 0

/-! ## JSON path resolver and object flattener (src/utils/jsonPath.ts) -/

/-- JavaScript regex `\s` / `String.prototype.trim` whitespace. -/
def isJsWs (c : Char) : Bool :=
  c = ' ' || c = '\t' || c = '\n' || c = '\r' || c = Char.ofNat 11 || c = Char.ofNat 12
    || c = Char.ofNat 160 || c = Char.ofNat 0x1680
    || (0x2000 ≤ c.toNat && c.toNat ≤ 0x200a)
    || c = Char.ofNat 0x2028 || c = Char.ofNat 0x2029 || c = Char.ofNat 0x202f
    || c = Char.ofNat 0x205f || c = Char.ofNat 0x3000 || c = Char.ofNat 0xfeff

/-- `path.replace(/\[(\d+)\]/g, ".$1")`: each bracketed digit run becomes a
dot segment; scanning resumes after the replacement. -/
def rewriteBrackets : Str → Str
  | [] => []
  | c :: rest =>
    if c = '[' then
      let ds := rest.takeWhile Char.isDigit
      if ds ≠ [] ∧ (rest.drop ds.length).head? = some ']' then
        '.' :: ds ++ rewriteBrackets (rest.drop (ds.length + 1))
      else '[' :: rewriteBrackets rest
    else c :: rewriteBrackets rest
termination_by l => l.length
decreasing_by
  · simp [List.length_drop]; omega
  · simp
  · simp

/-- `path.replace(/\[\*\]/g, ".*")`. -/
def rewriteStar : Str → Str
  | '[' :: '*' :: ']' :: rest => '.' :: '*' :: rewriteStar rest
  | c :: rest => c :: rewriteStar rest
  | [] => []

/-- JavaScript `path.split(".")`. -/
def splitDot : Str → List Str
  | [] => [[]]
  | c :: rest =>
    if c = '.' then [] :: splitDot rest
    else
      match splitDot rest with
      | s :: ss => (c :: s) :: ss
      | [] => [[c]]

/-- JavaScript `segments.join(".")`. -/
def joinDot (segs : List Str) : Str := joinSep ['.'] segs

/-- JavaScript `parseInt(s, 10)`: optional whitespace and sign, then a
nonempty digit run (trailing junk ignored); `none` models `NaN`. -/
def digitsVal (ds : Str) : Nat := ds.foldl (fun a c => a * 10 + (c.toNat - 48)) 0

def jsParseInt (s : Str) : Option Int :=
  let parseDigits := fun (r : Str) =>
    let ds := r.takeWhile Char.isDigit
    if ds = [] then none else some (digitsVal ds)
  match s.dropWhile isJsWs with
  | '-' :: r => (parseDigits r).map (fun n => -(n : Int))
  | '+' :: r => (parseDigits r).map (fun n => (n : Int))
  | r => (parseDigits r).map (fun n => (n : Int))

/-- JavaScript array read `items[i]` for an integer index. -/
def jsIndex (items : List Jv) (i : Int) : Jv :=
  if 0 ≤ i then items.getD i.toNat .vundef else (Jv.vundef)

/-- Support fact for the termination of `resolveSegs`: `split` never
returns an empty list. -/
def splitDot_ne_nil : ∀ r : Str, splitDot r ≠ [] := by
  intro r
  match r with
  | [] => simp [splitDot]
  | c :: rest =>
    simp only [splitDot]
    split
    · simp
    · cases h : splitDot rest <;> simp

/-- Support fact for the termination of `resolveSegs`: `join` undoes
`split`. -/
def joinDot_splitDot : ∀ r : Str, joinDot (splitDot r) = r := by
  intro r
  induction r with
  | nil => rfl
  | cons c rest ih =>
    by_cases hc : c = '.'
    · subst hc
      match h : splitDot rest with
      | [] => exact absurd h (splitDot_ne_nil rest)
      | s :: ss =>
        rw [h] at ih
        simp only [splitDot, if_pos rfl, joinDot, joinSep, h]
        simpa [joinDot] using ih
    · match h : splitDot rest with
      | [] => exact absurd h (splitDot_ne_nil rest)
      | s :: ss =>
        rw [h] at ih
        simp only [splitDot, if_neg hc, h]
        cases ss with
        | nil => simpa [joinDot, joinSep] using ih
        | cons t ts =>
          simp only [joinDot, joinSep] at ih ⊢
          rw [← ih]
          simp

/-- Support fact for the termination of `resolveSegs`: the bracket rewrite
never lengthens the path. -/
def rewriteBrackets_length : ∀ r : Str, (rewriteBrackets r).length ≤ r.length := by
  have H : ∀ (n : Nat) (r : Str), r.length ≤ n → (rewriteBrackets r).length ≤ r.length := by
    intro n
    induction n with
    | zero =>
      intro r hr
      match r with
      | [] => simp [rewriteBrackets]
      | c :: rest => simp at hr
    | succ n ih =>
      intro r hr
      match r with
      | [] => simp [rewriteBrackets]
      | c :: rest =>
        rw [rewriteBrackets]
        split
        · dsimp only
          split
          · rename_i hds
            have h4 : (rest.takeWhile Char.isDigit).length + 1 ≤ rest.length := by
              rcases hds with ⟨hne, hh⟩
              by_contra hcon
              have hdrop : rest.drop ((rest.takeWhile Char.isDigit).length) = [] := by
                apply List.drop_eq_nil_of_le
                omega
              rw [hdrop] at hh
              simp at hh
            have h2 := ih (rest.drop ((rest.takeWhile Char.isDigit).length + 1))
              (by simp [List.length_drop] at hr ⊢; omega)
            simp [List.length_drop] at h2 ⊢
            omega
          · have h2 := ih rest (by simp at hr; omega)
            simp at h2 ⊢
            omega
        · have h2 := ih rest (by simp at hr; omega)
          simp at h2 ⊢
          omega
  intro r
  exact H r.length r (Nat.le_refl _)

/-- Support fact for the termination of `resolveSegs`: the wildcard rewrite
never lengthens the path. -/
def rewriteStar_length : ∀ r : Str, (rewriteStar r).length ≤ r.length := by
  intro r
  induction r using rewriteStar.induct with
  | case1 rest ih => simp only [rewriteStar]; simp at ih ⊢; omega
  | case2 c rest hne ih => simp only [rewriteStar]; simp at ih ⊢; omega
  | case3 => simp [rewriteStar]

/-- Combined size of a segment list (each segment plus its separator). -/
def segsSize : List Str → Nat
  | [] => 0
  | s :: rest => s.length + 1 + segsSize rest

/-- Support fact for the termination of `resolveSegs`. -/
def segsSize_splitDot : ∀ r : Str, segsSize (splitDot r) = r.length + 1 := by
  intro r
  induction r with
  | nil => simp [splitDot, segsSize]
  | cons c rest ih =>
    by_cases hc : c = '.'
    · simp [splitDot, hc, segsSize, ih]
      omega
    · match h : splitDot rest with
      | [] => exact absurd h (splitDot_ne_nil rest)
      | s :: ss =>
        rw [h] at ih
        simp only [splitDot, if_neg hc, h, segsSize] at ih ⊢
        simp at ih ⊢
        omega

/-- Support fact for the termination of `resolveSegs`. -/
def joinDot_cons_length :
    ∀ (s : Str) (rest : List Str), (joinDot (s :: rest)).length + 1 = segsSize (s :: rest) := by
  intro s rest
  induction rest generalizing s with
  | nil => simp [joinDot, joinSep, segsSize]
  | cons t ts ih =>
    have := ih t
    simp only [joinDot, joinSep, segsSize] at this ⊢
    cases ts with
    | nil => simp [joinSep, segsSize] at this ⊢; omega
    | cons u us => simp at this ⊢; omega

/-- The segment loop of `resolveJsonPath`: at each segment, `null`/
`undefined` short-circuit to `undefined`; `*` on an array fans out the
remaining path (re-parsed, as the source recursion does) over the elements;
a numeric segment indexes an array; otherwise objects are dereferenced by
key and any other value yields `undefined`.  The wildcard branch of the
source calls `resolveJsonPath item remaining`; that call appears here with
the body of `resolveJsonPath` inlined. -/
def resolveSegs : Jv → List Str → Jv
  | cur, [] => cur
  | cur, seg :: rest =>
    match cur with
    | .vnull => .vundef
    | .vundef => .vundef
    | .varr items =>
      if seg = ['*'] then
        if joinDot rest ≠ [] then
          .varr (items.map (fun item =>
            resolveSegs item (splitDot (rewriteStar (rewriteBrackets (joinDot rest))))))
        else .varr items
      else
        match jsParseInt seg with
        | none => .vundef
        | some i => resolveSegs (jsIndex items i) rest
    | .vobj fields => resolveSegs (lookupKey fields seg) rest
    | _ => .vundef
termination_by _ segs => segsSize segs
decreasing_by
  · have hjoin : joinDot rest ≠ [] := by assumption
    have h1 := segsSize_splitDot (rewriteStar (rewriteBrackets (joinDot rest)))
    have h2 := rewriteStar_length (rewriteBrackets (joinDot rest))
    have h3 := rewriteBrackets_length (joinDot rest)
    cases rest with
    | nil => simp [joinDot, joinSep] at hjoin
    | cons s ss =>
      have h4 := joinDot_cons_length s ss
      simp only [segsSize] at h4 ⊢
      omega
  all_goals simp [segsSize]

/-- `resolveJsonPath`: rewrite bracket notation to dots, split, and walk. -/
def resolveJsonPath (v : Jv) (path : Str) : Jv :=
  resolveSegs v (splitDot (rewriteStar (rewriteBrackets path)))

/-- `Object.assign(result, xs)`: set every binding of `xs` on `m` in order. -/
def assignAll (m xs : List (Str × Jv)) : List (Str × Jv) :=
  xs.foldl (fun acc kv => setKey acc kv.1 kv.2) m

mutual

/-- `flattenObject`: nested plain objects (non-null, non-array) are
descended into with a dotted prefix; all other values are assigned to
their full key. -/
def flattenObject (fields : List (Str × Jv)) (pre : Str) : List (Str × Jv) :=
  flattenGo fields pre []

def flattenGo : List (Str × Jv) → Str → List (Str × Jv) → List (Str × Jv)
  | [], _, acc => acc
  | (k, Jv.vobj fs) :: rest, pre, acc =>
    flattenGo rest pre
      (assignAll acc (flattenObject fs (if pre = [] then k else pre ++ '.' :: k)))
  | (k, v) :: rest, pre, acc =>
    flattenGo rest pre (setKey acc (if pre = [] then k else pre ++ '.' :: k) v)

end

/-! ## HTML to plain text (src/utils/htmlToText.ts)

Each `replace(/pat/g, rep)` of the source pipeline is embedded through the
generic scanner `replaceBy`: at every position the matcher either consumes
the match (the head character plus `n` characters of the tail, resuming
after it, as a global regex replace does) or the character is copied. -/

def isHT (c : Char) : Bool := c = ' ' || c = '\t'

/-- Global leftmost replacement driven by a matcher: `m c rest = some n`
means a match of length `n + 1` starts here. -/
def replaceBy (m : Char → Str → Option Nat) (rep : Str) : Str → Str
  | [] => []
  | c :: rest =>
    match m c rest with
    | some n => rep ++ replaceBy m rep (rest.drop n)
    | none => c :: replaceBy m rep rest
termination_by l => l.length
decreasing_by
  all_goals simp [List.length_drop]
  omega

/-- Case-insensitive prefix test against a lowercase pattern. -/
def ciPrefix : Str → Str → Bool
  | [], _ => true
  | _ :: _, [] => false
  | p :: ps, c :: cs => (c.toLower = p) && ciPrefix ps cs

/-- Matcher for `/<br\s*\/?>/gi`. -/
def brMatch (c : Char) (rest : Str) : Option Nat :=
  if c = '<' then
    match rest with
    | c1 :: c2 :: r2 =>
      if c1.toLower = 'b' && c2.toLower = 'r' then
        let k := (r2.takeWhile isJsWs).length
        match r2.drop k with
        | '/' :: '>' :: _ => some (2 + k + 2)
        | '>' :: _ => some (2 + k + 1)
        | _ => none
      else none
    | _ => none
  else none

/-- Matcher for a fixed case-insensitive close tag such as `/<\/p>/gi`
(`pat` is the lowercase pattern after the opening angle bracket). -/
def closeMatch (pat : Str) (c : Char) (rest : Str) : Option Nat :=
  if c = '<' && ciPrefix pat rest then some pat.length else none

/-- Matcher for `/<li[^>]*>/gi`. -/
def liMatch (c : Char) (rest : Str) : Option Nat :=
  if c = '<' then
    match rest with
    | c1 :: c2 :: r2 =>
      if c1.toLower = 'l' && c2.toLower = 'i' then
        let a := r2.takeWhile (fun x => x ≠ '>')
        if (r2.drop a.length).head? = some '>' then some (2 + a.length + 1) else none
      else none
    | _ => none
  else none

/-- Matcher for `/<[^>]+>/g`. -/
def tagMatch (c : Char) (rest : Str) : Option Nat :=
  if c = '<' then
    let a := rest.takeWhile (fun x => x ≠ '>')
    if a ≠ [] ∧ (rest.drop a.length).head? = some '>' then some (a.length + 1) else none
  else none

/-- Matcher for a literal entity `p0 :: ps` such as `/&amp;/g`. -/
def entMatch (p0 : Char) (ps : Str) (c : Char) (rest : Str) : Option Nat :=
  if c = p0 && ps.isPrefixOf rest then some ps.length else none

/-- Matcher for `/[ \t]+/g`. -/
def htRunMatch (c : Char) (rest : Str) : Option Nat :=
  if isHT c then some ((rest.takeWhile isHT).length) else none

/-- Matcher for `/\n{3,}/g`. -/
def nlRunMatch (c : Char) (rest : Str) : Option Nat :=
  if c = '\n' && decide (2 ≤ (rest.takeWhile (fun x => x = '\n')).length) then
    some ((rest.takeWhile (fun x => x = '\n')).length)
  else none

/-- JavaScript `String.prototype.trim`. -/
def trimStr (l : Str) : Str := ((l.dropWhile isJsWs).reverse.dropWhile isJsWs).reverse

def stripTags : Str → Str := replaceBy tagMatch []

def collapseWs : Str → Str := replaceBy htRunMatch [' ']

def collapseNl : Str → Str := replaceBy nlRunMatch ['\n', '\n']

/-- `htmlToText`: the fixed 16-step substitution pipeline followed by
`trim`, in source order. -/
def htmlToText (s : Str) : Str :=
  trimStr (collapseNl (collapseWs
    (replaceBy (entMatch '&' (("nbsp;").toList)) [' ']
    (replaceBy (entMatch '&' (("#39;").toList)) [Char.ofNat 39]
    (replaceBy (entMatch '&' (("quot;").toList)) [quoteChar]
    (replaceBy (entMatch '&' (("gt;").toList)) ['>']
    (replaceBy (entMatch '&' (("lt;").toList)) ['<']
    (replaceBy (entMatch '&' (("amp;").toList)) ['&']
    (stripTags
    (replaceBy (closeMatch (("/td>").toList)) ['\t']
    (replaceBy (closeMatch (("/tr>").toList)) ['\n']
    (replaceBy liMatch ('-' :: [' '])
    (replaceBy (closeMatch (("/li>").toList)) ['\n']
    (replaceBy (closeMatch (("/div>").toList)) ['\n']
    (replaceBy (closeMatch (("/p>").toList)) ['\n', '\n']
    (replaceBy brMatch ['\n'] s))))))))))))))))

/-! ## Auth provider token cache (src/utils/authProvider.ts) -/

structure CachedToken where
  accessToken : Str
  expiresAt : Nat

structure TokenFetch where
  access_token : Str
  expires_in : Nat

structure TokenStep where
  token : Str
  cache : Option CachedToken
  fetched : Bool

/-- One `getToken` call for a single cache key: `cache` is the entry under
that key, `now` is `Date.now()` in milliseconds, and `fetch` is the token
endpoint response used when the cache misses. -/
def getTokenStep (cache : Option CachedToken) (now : Nat) (fetch : TokenFetch) : TokenStep :=
  match cache with
  | some cached =>
    if cached.expiresAt > now + 5 * 60 * 1000 then
      { token := cached.accessToken, cache := some cached, fetched := false }
    else
      { token := fetch.access_token,
        cache := some { accessToken := fetch.access_token,
                        expiresAt := now + fetch.expires_in * 1000 },
        fetched := true }
  | none =>
    { token := fetch.access_token,
      cache := some { accessToken := fetch.access_token,
                      expiresAt := now + fetch.expires_in * 1000 },
      fetched := true }

/-! ## Dataverse extraction pagination (registerExtractDataverse) -/

/-- `stripODataAnnotations`. -/
def stripODataAnnotations (record : JRecord) : JRecord :=
  record.filter (fun kv =>
    !((("@odata.").toList.isPrefixOf kv.1)
      || (("@Microsoft.").toList.isPrefixOf kv.1)
      || ((("_").toList.isPrefixOf kv.1) && (("_value").toList.isSuffixOf kv.1))))

/-- One page of an OData response; `nextLink` is modelled as an abstract
page id resolved by the ambient `fetch` function. -/
structure ODataPage where
  value : List JRecord
  nextLink : Option Nat

structure DataverseRun where
  records : List JRecord
  nextLink : Option Nat
  pageCount : Nat
  warnings : List Str

/-- The pagination loop: follow `nextLink` while records are still needed
and fewer than 5 pages have been fetched. -/
def dataversePages (fetch : Nat → ODataPage) (maxTop : Nat) :
    List JRecord → Option Nat → Nat → List JRecord × Option Nat × Nat
  | acc, none, pc => (acc, none, pc)
  | acc, some link, pc =>
    if acc.length < maxTop ∧ pc < 5 then
      let page := fetch link
      dataversePages fetch maxTop (acc ++ page.value.map stripODataAnnotations)
        page.nextLink (pc + 1)
    else (acc, some link, pc)
termination_by _ _ pc => 5 - pc
decreasing_by omega

/-- JavaScript `top || 50` (`0` is falsy). -/
def jsTopOr : Option Nat → Nat
  | none => 50
  | some 0 => 50
  | some t => t

/-- The record-gathering part of one `extract_dataverse` invocation on the
success path: bounded pagination, trim to `maxTop`, and the
more-records-available warning. -/
def extractDataverseRun (fetch : Nat → ODataPage) (top : Option Nat) : DataverseRun :=
  let maxTop := min (jsTopOr top) 500
  match dataversePages fetch maxTop [] (some 0) 0 with
  | (allRecords, nl, pc) =>
    let trimmed := if allRecords.length > maxTop then allRecords.take maxTop else allRecords
    let warnings :=
      if nl.isSome ∧ trimmed.length ≥ maxTop then
        [("More records available in Dataverse. Showing first ").toList
          ++ natStr trimmed.length ++ (" results.").toList]
      else []
    { records := trimmed, nextLink := nl, pageCount := pc, warnings := warnings }

/-! ## Code extraction (src/tools/extraction/extractCode.ts)

The line-anchored JavaScript regexes of `extractStructure` are embedded
through a small backtracking matcher: `mtch` returns every way a pattern
can consume a prefix of the input, in the engine's preference order
(alternation left first, quantifiers greedy, an iteration of a quantifier
must consume), so its head is exactly the JavaScript match. -/

inductive Rx where
  | eps : Rx
  | cls : (Char → Bool) → Rx
  | seq : Rx → Rx → Rx
  | alt : Rx → Rx → Rx
  | star : Rx → Rx
  | grp : Nat → Rx → Rx

/-- Structural size of a pattern (used to bound the matcher recursion). -/
def rxSize : Rx → Nat
  | .eps => 1
  | .cls _ => 1
  | .seq a b => rxSize a + rxSize b + 1
  | .alt a b => rxSize a + rxSize b + 1
  | .star a => rxSize a + 1
  | .grp _ a => rxSize a + 1

/-- All prefix matches: pairs of the remaining suffix and the captures made
along the way, in backtracking preference order.  Every recursive call
strictly decreases the pair (input length, pattern size) lexicographically
(an iteration of a quantifier must consume input), so the recursion depth
is below `(l.length + 2) * (rxSize rx + 1)` and `mtch` below runs this
function with that much fuel, making the fuel case unreachable. -/
def mtchF : Nat → Rx → Str → List (Str × List (Nat × Str))
  | 0, _, _ => []
  | fuel + 1, rx, l =>
    match rx with
    | .eps => [(l, [])]
    | .cls p =>
      match l with
      | [] => []
      | c :: rest => if p c then [(rest, [])] else []
    | .alt a b => mtchF fuel a l ++ mtchF fuel b l
    | .seq a b =>
      (mtchF fuel a l).flatMap
        (fun q => (mtchF fuel b q.1).map (fun q2 => (q2.1, q.2 ++ q2.2)))
    | .star a =>
      (((mtchF fuel a l).filter (fun q => q.1.length < l.length)).flatMap
        (fun q => (mtchF fuel (.star a) q.1).map (fun q2 => (q2.1, q.2 ++ q2.2))))
        ++ [(l, [])]
    | .grp n a =>
      (mtchF fuel a l).map (fun q => (q.1, q.2 ++ [(n, l.take (l.length - q.1.length))]))

def mtch (rx : Rx) (l : Str) : List (Str × List (Nat × Str)) :=
  mtchF ((l.length + 2) * (rxSize rx + 1)) rx l

def rchr (c : Char) : Rx := Rx.cls (fun x => x = c)

def rlit (s : Str) : Rx := s.foldr (fun c acc => Rx.seq (rchr c) acc) Rx.eps

/-- Greedy `?`: the present branch is preferred. -/
def ropt (a : Rx) : Rx := Rx.alt a Rx.eps

def rplus (a : Rx) : Rx := Rx.seq a (Rx.star a)

def raltList : List Rx → Rx
  | [] => Rx.cls (fun _ => false)
  | [a] => a
  | a :: rest => Rx.alt a (raltList rest)

def rseqList : List Rx → Rx
  | [] => Rx.eps
  | a :: rest => Rx.seq a (rseqList rest)

/-- JavaScript regex `\w`. -/
def isWordChar (c : Char) : Bool := c.isAlpha || c.isDigit || c = '_'

def rws : Rx := Rx.cls isJsWs

def rwd : Rx := Rx.cls isWordChar

/-- The character class `[\w<>\[\],\s]` of the C#/Java method patterns. -/
def isTypeChar (c : Char) : Bool :=
  isWordChar c || c = '<' || c = '>' || c = '[' || c = ']' || c = ',' || isJsWs c

def rkw (s : String) : Rx := rlit s.toList

/-- `(kw\s+)` for an optional keyword group. -/
def rkwWs (n : Nat) (s : String) : Rx := Rx.grp n (Rx.seq (rkw s) (rplus rws))

/-- `/^(export\s+)?(interface|type|enum|class|abstract\s+class)\s+(\w+)/` -/
def tsPat1 : Rx := rseqList
  [ ropt (rkwWs 1 ("export")),
    Rx.grp 2 (raltList [rkw ("interface"), rkw ("type"), rkw ("enum"), rkw ("class"),
      rseqList [rkw ("abstract"), rplus rws, rkw ("class")]]),
    rplus rws, Rx.grp 3 (rplus rwd) ]

/-- `/^(export\s+)?(async\s+)?function\s+(\w+)/` -/
def tsPat2 : Rx := rseqList
  [ ropt (rkwWs 1 ("export")), ropt (rkwWs 2 ("async")),
    rkw ("function"), rplus rws, Rx.grp 3 (rplus rwd) ]

/-- `/^\s*(public|private|protected|static|async)\s+(\w+)\s*\(/` -/
def tsPat3 : Rx := rseqList
  [ Rx.star rws,
    Rx.grp 1 (raltList [rkw ("public"), rkw ("private"), rkw ("protected"),
      rkw ("static"), rkw ("async")]),
    rplus rws, Rx.grp 2 (rplus rwd), Rx.star rws, rchr '(' ]

/-- `/^(export\s+)?(class)\s+(\w+)/` -/
def jsPat1 : Rx := rseqList
  [ ropt (rkwWs 1 ("export")), Rx.grp 2 (rkw ("class")), rplus rws, Rx.grp 3 (rplus rwd) ]

/-- `/^\s*(const|let|var)\s+(\w+)\s*=\s*(async\s+)?\(/` -/
def jsPat3 : Rx := rseqList
  [ Rx.star rws, Rx.grp 1 (raltList [rkw ("const"), rkw ("let"), rkw ("var")]),
    rplus rws, Rx.grp 2 (rplus rwd), Rx.star rws, rchr '=', Rx.star rws,
    ropt (rkwWs 3 ("async")), rchr '(' ]

/-- `/^\s*(public|private|protected|internal)?\s*(static\s+)?(partial\s+)?(class|interface|struct|enum|record)\s+(\w+)/` -/
def csPat1 : Rx := rseqList
  [ Rx.star rws,
    ropt (Rx.grp 1 (raltList [rkw ("public"), rkw ("private"), rkw ("protected"), rkw ("internal")])),
    Rx.star rws, ropt (rkwWs 2 ("static")), ropt (rkwWs 3 ("partial")),
    Rx.grp 4 (raltList [rkw ("class"), rkw ("interface"), rkw ("struct"), rkw ("enum"), rkw ("record")]),
    rplus rws, Rx.grp 5 (rplus rwd) ]

/-- `/^\s*(public|private|protected|internal)?\s*(static\s+)?(async\s+)?(virtual\s+)?(override\s+)?\w[\w<>\[\],\s]*\s+(\w+)\s*\(/` -/
def csPat2 : Rx := rseqList
  [ Rx.star rws,
    ropt (Rx.grp 1 (raltList [rkw ("public"), rkw ("private"), rkw ("protected"), rkw ("internal")])),
    Rx.star rws, ropt (rkwWs 2 ("static")), ropt (rkwWs 3 ("async")),
    ropt (rkwWs 4 ("virtual")), ropt (rkwWs 5 ("override")),
    rwd, Rx.star (Rx.cls isTypeChar), rplus rws, Rx.grp 6 (rplus rwd),
    Rx.star rws, rchr '(' ]

/-- `/^\s*(public|private|protected)?\s*(static\s+)?(class|interface|table)\s+(\w+)/` -/
def xppPat1 : Rx := rseqList
  [ Rx.star rws,
    ropt (Rx.grp 1 (raltList [rkw ("public"), rkw ("private"), rkw ("protected")])),
    Rx.star rws, ropt (rkwWs 2 ("static")),
    Rx.grp 3 (raltList [rkw ("class"), rkw ("interface"), rkw ("table")]),
    rplus rws, Rx.grp 4 (rplus rwd) ]

/-- `/^\s*(public|private|protected)?\s*(static\s+)?\w+\s+(\w+)\s*\(/` -/
def xppPat2 : Rx := rseqList
  [ Rx.star rws,
    ropt (Rx.grp 1 (raltList [rkw ("public"), rkw ("private"), rkw ("protected")])),
    Rx.star rws, ropt (rkwWs 2 ("static")),
    rplus rwd, rplus rws, Rx.grp 3 (rplus rwd), Rx.star rws, rchr '(' ]

/-- `/^class\s+(\w+)/` -/
def pyPat1 : Rx := rseqList [ rkw ("class"), rplus rws, Rx.grp 1 (rplus rwd) ]

/-- `/^(async\s+)?def\s+(\w+)/` -/
def pyPat2 : Rx := rseqList
  [ ropt (rkwWs 1 ("async")), rkw ("def"), rplus rws, Rx.grp 2 (rplus rwd) ]

/-- `/^\s*(public|private|protected)?\s*(static\s+)?(abstract\s+)?(class|interface|enum)\s+(\w+)/` -/
def javaPat1 : Rx := rseqList
  [ Rx.star rws,
    ropt (Rx.grp 1 (raltList [rkw ("public"), rkw ("private"), rkw ("protected")])),
    Rx.star rws, ropt (rkwWs 2 ("static")), ropt (rkwWs 3 ("abstract")),
    Rx.grp 4 (raltList [rkw ("class"), rkw ("interface"), rkw ("enum")]),
    rplus rws, Rx.grp 5 (rplus rwd) ]

/-- `/^\s*(public|private|protected)?\s*(static\s+)?(abstract\s+)?\w[\w<>\[\],\s]*\s+(\w+)\s*\(/` -/
def javaPat2 : Rx := rseqList
  [ Rx.star rws,
    ropt (Rx.grp 1 (raltList [rkw ("public"), rkw ("private"), rkw ("protected")])),
    Rx.star rws, ropt (rkwWs 2 ("static")), ropt (rkwWs 3 ("abstract")),
    rwd, Rx.star (Rx.cls isTypeChar), rplus rws, Rx.grp 4 (rplus rwd),
    Rx.star rws, rchr '(' ]

/-- The capture of group `n` in the final match (last write wins). -/
def capGet (caps : List (Nat × Str)) (n : Nat) : Option Str :=
  (caps.reverse.find? (fun p => p.1 = n)).map Prod.snd

/-- `line.match(rx)` for a line-anchored pattern with `ngroups` capture
groups: the whole match `m[0]` plus `m[1] .. m[ngroups]`. -/
def jsMatch (rx : Rx) (ngroups : Nat) (l : Str) : Option (Str × List (Option Str)) :=
  match mtch rx l with
  | [] => none
  | q :: _ =>
    some (l.take (l.length - q.1.length), (List.range ngroups).map (fun i => capGet q.2 (i + 1)))

/-- The `patterns` table of `extractStructure`, with each pattern's group
count. -/
def structurePatterns : List (String × List (Rx × Nat)) :=
  [ ("typescript", [(tsPat1, 3), (tsPat2, 3), (tsPat3, 2)]),
    ("javascript", [(jsPat1, 3), (tsPat2, 3), (jsPat3, 3)]),
    ("csharp", [(csPat1, 5), (csPat2, 6)]),
    ("xpp", [(xppPat1, 4), (xppPat2, 3)]),
    ("python", [(pyPat1, 1), (pyPat2, 2)]),
    ("java", [(javaPat1, 5), (javaPat2, 4)]) ]

structure CodeRecord where
  type : Str
  name : Str
  line : Nat
  signature : Str
  body : Option Str := none
deriving DecidableEq

/-- JavaScript `"\n"`-split of the source text. -/
def splitNl : Str → List Str
  | [] => [[]]
  | c :: rest =>
    if c = '\n' then [] :: splitNl rest
    else
      match splitNl rest with
      | s :: ss => (c :: s) :: ss
      | [] => [[c]]

/-- `inferType`: keyword sniffing on the lowercased signature. -/
def inferType (signature : Str) (language : String) : Str :=
  let s := lowerStr signature
  if isSubstr (("class").toList) s then ("class").toList
  else if isSubstr (("interface").toList) s then ("interface").toList
  else if isSubstr (("enum").toList) s then ("enum").toList
  else if isSubstr (("struct").toList) s then ("struct").toList
  else if isSubstr (("type ").toList) s && language = ("typescript" : String) then ("type").toList
  else if isSubstr (("function").toList) s || isSubstr (("def ").toList) s then ("function").toList
  else if isSubstr (("table").toList) s && language = ("xpp" : String) then ("table").toList
  else ("method").toList

/-- The filter `g && !g.match(/^\s*$/)` on match-array entries. -/
def keepGroup : Option Str → Bool
  | none => false
  | some s => (!s.isEmpty) && (!s.all isJsWs)

/-- `name.replace(/\s*\($/, "")`. -/
def stripTrailParen (name : Str) : Str :=
  match name.reverse with
  | '(' :: r => (r.dropWhile isJsWs).reverse
  | _ => name

def firstPatternMatch : List (Rx × Nat) → Str → Option (Str × List (Option Str))
  | [], _ => none
  | p :: rest, l =>
    match jsMatch p.1 p.2 l with
    | some r => some r
    | none => firstPatternMatch rest l

/-- The line loop of `extractStructure` (`i` is the 1-based line number). -/
def structLoop (pats : List (Rx × Nat)) (language : String) : List Str → Nat → List CodeRecord
  | [], _ => []
  | line :: rest, i =>
    match firstPatternMatch pats line with
    | none => structLoop pats language rest (i + 1)
    | some (m0, groups) =>
      let signature := trimStr line
      let nonEmpty := (some m0 :: groups).filter keepGroup
      let name := match nonEmpty.getLast? with
        | some (some nm) => nm
        | _ => signature.take 50
      { type := inferType signature language,
        name := stripTrailParen name,
        line := i,
        signature := signature.take 200 } :: structLoop pats language rest (i + 1)

/-- `extractStructure`: unknown languages fall back to the typescript
pattern set (but keep their own name for `inferType`). -/
def extractStructure (content : Str) (language : String) : List CodeRecord :=
  let langPatterns := ((assocGet language structurePatterns).getD [(tsPat1, 3), (tsPat2, 3), (tsPat3, 2)])
  structLoop langPatterns language (splitNl content) 1

def wsAfter (k : Nat) (t : Str) : Bool :=
  match t.drop k with
  | c :: _ => isJsWs c
  | [] => false

/-- `/^import\s+.*/.test` on a trimmed line. -/
def importTestTS (t : Str) : Bool := (("import").toList).isPrefixOf t && wsAfter 6 t

/-- `/^(import|require)\s*\(?.*/.test` on a trimmed line. -/
def importTestJS (t : Str) : Bool :=
  (("import").toList).isPrefixOf t || (("require").toList).isPrefixOf t

/-- `/^using\s+.*/.test` on a trimmed line. -/
def importTestUsing (t : Str) : Bool := (("using").toList).isPrefixOf t && wsAfter 5 t

/-- `/^(import|from)\s+.*/.test` on a trimmed line. -/
def importTestPy (t : Str) : Bool :=
  ((("import").toList).isPrefixOf t && wsAfter 6 t)
    || ((("from").toList).isPrefixOf t && wsAfter 4 t)

/-- The `importPatterns` table of `extractImports`. -/
def importPatterns : List (String × (Str → Bool)) :=
  [ ("typescript", importTestTS), ("javascript", importTestJS),
    ("csharp", importTestUsing), ("xpp", importTestUsing),
    ("python", importTestPy), ("java", importTestTS) ]

def importsLoop (test : Str → Bool) : List Str → Nat → List CodeRecord
  | [], _ => []
  | line :: rest, i =>
    if test (trimStr line) then
      { type := ("import").toList, name := trimStr line, line := i,
        signature := trimStr line } :: importsLoop test rest (i + 1)
    else importsLoop test rest (i + 1)

/-- `extractImports`: unknown languages fall back to the typescript
pattern. -/
def extractImports (content : Str) (language : String) : List CodeRecord :=
  importsLoop ((assocGet language importPatterns).getD importTestTS) (splitNl content) 1

def exportsLoop (language : String) : List Str → Nat → List CodeRecord
  | [], _ => []
  | l :: rest, i =>
    let line := trimStr l
    if (language = ("typescript" : String) || language = ("javascript" : String))
        && (("export ").toList).isPrefixOf line then
      { type := ("export").toList, name := line.take 80, line := i,
        signature := line.take 200 } :: exportsLoop language rest (i + 1)
    else if (language = ("csharp" : String) || language = ("java" : String)
          || language = ("xpp" : String))
        && ((("public").toList).isPrefixOf line && wsAfter 6 line) then
      { type := ("export").toList, name := line.take 80, line := i,
        signature := line.take 200 } :: exportsLoop language rest (i + 1)
    else exportsLoop language rest (i + 1)

/-- `extractExports`: an explicit export keyword for the TS/JS family, a
public-visibility prefix for the C#/Java/X++ family, nothing otherwise. -/
def extractExports (content : Str) (language : String) : List CodeRecord :=
  exportsLoop language (splitNl content) 1

/-- The line loop of `extractComments`: `/** ... */` blocks become one
record at the opening line; `///` lines one record each. -/
def commentsLoop : List Str → Nat → Bool → Nat → List Str → List CodeRecord
  | [], _, _, _, _ => []
  | l :: rest, i, inBlock, blockStart, blockLines =>
    let line := trimStr l
    let step :=
      if (("/**").toList).isPrefixOf line && !inBlock then
        (([] : List CodeRecord), true, i, [line])
      else if inBlock then
        let bl := blockLines ++ [line]
        if isSubstr (("*/").toList) line then
          ([{ type := ("doc-comment").toList,
              name := ("Comment at line ").toList ++ natStr blockStart,
              line := blockStart,
              signature := (joinSep ['\n'] bl).take 500 }], false, blockStart, ([] : List Str))
        else ([], true, blockStart, bl)
      else ([], false, blockStart, blockLines)
    let recs2 :=
      if (("///").toList).isPrefixOf line then
        [{ type := ("xml-doc-comment").toList,
           name := ("Comment at line ").toList ++ natStr i,
           line := i, signature := line.take 200 }]
      else ([] : List CodeRecord)
    step.1 ++ recs2 ++ commentsLoop rest (i + 1) step.2.1 step.2.2.1 step.2.2.2

def extractComments (content : Str) : List CodeRecord :=
  commentsLoop (splitNl content) 1 false 0 []

def fullLoop : List Str → Nat → List CodeRecord
  | [], _ => []
  | l :: rest, i =>
    { type := ("line").toList, name := natStr i, line := i, signature := l }
      :: fullLoop rest (i + 1)

/-- Full mode: one record per line, capped at 500 lines. -/
def extractFull (content : Str) : List CodeRecord :=
  let codeRecords := fullLoop (splitNl content) 1
  if codeRecords.length > 500 then codeRecords.take 500 else codeRecords

inductive ExtractionMode where
  | full | struct | imports | exports | comments
deriving DecidableEq

/-- The mode dispatch of the `extract_code` tool handler. -/
def extractRecords (content : Str) (language : String) : ExtractionMode → List CodeRecord
  | .full => extractFull content
  | .struct => extractStructure content language
  | .imports => extractImports content language
  | .exports => extractExports content language
  | .comments => extractComments content

/-- `LANGUAGE_MAP`. -/
def languageMap : List (Str × String) :=
  [ ((".ts").toList, "typescript"), ((".tsx").toList, "typescript"),
    ((".js").toList, "javascript"), ((".jsx").toList, "javascript"),
    ((".cs").toList, "csharp"), ((".xpp").toList, "xpp"),
    ((".xml").toList, "xml"), ((".json").toList, "json"),
    ((".py").toList, "python"), ((".java").toList, "java"),
    ((".sql").toList, "sql") ]

/-- `detectLanguage`, taking the file extension (the output of the external
`path.extname`) as input. -/
def detectLanguage (ext : Str) : String :=
  (assocGet (lowerStr ext) languageMap).getD ("unknown")

/-! ## Predicates used by the claims -/

def jvIsUndef : Jv → Bool
  | .vundef => true
  | _ => false

/-- Two adjacent horizontal-whitespace characters somewhere in the string. -/
def hasDoubleSpace : Str → Bool
  | a :: b :: rest => (isHT a && isHT b) || hasDoubleSpace (b :: rest)
  | _ => false

/-- Three adjacent newlines somewhere in the string. -/
def hasTripleNl : Str → Bool
  | a :: b :: c :: rest =>
    (a = '\n' && b = '\n' && c = '\n') || hasTripleNl (b :: c :: rest)
  | _ => false

/-- A tag-shaped substring (`<[^>]+>`) occurs somewhere in the string. -/
def hasTagShaped : Str → Bool
  | [] => false
  | c :: rest => (tagMatch c rest).isSome || hasTagShaped rest

/-- A key that the resolver parses back to itself as a single segment:
nonempty, dot-free, and untouched by the bracket rewrites. -/
def goodKey (k : Str) : Bool :=
  (!k.isEmpty) && (!k.contains '.')
    && decide (rewriteBrackets k = k) && decide (rewriteStar k = k)

mutual

/-- Every object value reachable outside arrays is nonempty and
well-keyed. -/
def goodVal : Jv → Bool
  | .vobj fs => (!fs.isEmpty) && goodObj fs
  | _ => true

/-- Keys are `goodKey` and unique within the object; values are good. -/
def goodObj : List (Str × Jv) → Bool
  | [] => true
  | (k, v) :: rest =>
    goodKey k && (!(rest.any (fun kv => kv.1 = k))) && goodVal v && goodObj rest

end

/-- The flattened entry sequence of an object, before JavaScript property
assignment collapses duplicate keys (`flattenGo` below is proved equal to
assigning these entries in order). -/
def entriesOf : List (Str × Jv) → Str → List (Str × Jv)
  | [], _ => []
  | (k, Jv.vobj fs) :: rest, pre =>
    entriesOf fs (if pre = [] then k else pre ++ '.' :: k) ++ entriesOf rest pre
  | (k, v) :: rest, pre =>
    ((if pre = [] then k else pre ++ '.' :: k), v) :: entriesOf rest pre

/-- Length of the leading newline run of a string. -/
def headRun (l : Str) : Nat := (l.takeWhile (fun x => x = '\n')).length

/-! # Theorems -/

theorem depthAux : ∀ n : Nat,
    (∀ v : Jv, sizeOf v ≤ n → ∀ d : Nat, getMaxDepth v d = d + specDepth v)
    ∧ (∀ fs : List (Str × Jv), sizeOf fs ≤ n → ∀ d m : Nat,
        getMaxDepthList fs d (d + m) = d + specDepthList fs m) := by
  intro n
  induction n with
  | zero =>
    constructor
    · intro v hv
      cases v <;> simp at hv
    · intro fs hfs
      cases fs <;> simp at hfs
  | succ n ih =>
    constructor
    · intro v hv d
      cases v with
      | vobj fields =>
        have hfs : sizeOf fields ≤ n := by simp at hv; omega
        have h2 := ih.2 fields hfs d 0
        simp only [getMaxDepth, specDepth]
        simpa using h2
      | vundef => simp [getMaxDepth, specDepth]
      | vnull => simp [getMaxDepth, specDepth]
      | vbool b => simp [getMaxDepth, specDepth]
      | vnum k => simp [getMaxDepth, specDepth]
      | vstr s => simp [getMaxDepth, specDepth]
      | varr es => simp [getMaxDepth, specDepth]
    · intro fs hfs d m
      cases fs with
      | nil => simp [getMaxDepthList, specDepthList]
      | cons kv rest =>
        obtain ⟨k, v⟩ := kv
        have hv : sizeOf v ≤ n := by simp at hfs; omega
        have hrest : sizeOf rest ≤ n := by simp at hfs; omega
        have h1 := ih.1 v hv (d + 1)
        have hmax : max (d + m) (getMaxDepth v (d + 1)) = d + max m (1 + specDepth v) := by
          rw [h1]; omega
        simp only [getMaxDepthList, specDepthList]
        rw [hmax]
        exact ih.2 rest hrest d (max m (1 + specDepth v))

/-- The running-depth accumulator of the source aligns with the spec's
depth definition. -/
theorem getMaxDepth_spec (v : Jv) (d : Nat) : getMaxDepth v d = d + specDepth v :=
  (depthAux (sizeOf v)).1 v (Nat.le_refl _) d

/-- With no explicit format and no recognized target tool, resolution is
the data-shape heuristic. -/
theorem resolveFormat_heuristic (md : Metadata) (records : List JRecord)
    (fh : Option (List (Str × Str))) (tt : Option String)
    (htool : tt.bind (fun t => assocGet t targetToolFormatMap) = none) :
    resolveFormat ⟨md, records, fh⟩ none tt = detectFormatFromData records := by
  simp [resolveFormat, htool]

theorem specDepthList_fold : ∀ (r : JRecord) (m : Nat),
    specDepthList r (m + 1) = 1 + r.foldl (fun a kv => max a (specDepth kv.2)) m := by
  intro r
  induction r with
  | nil =>
    intro m
    simp [specDepthList]
    omega
  | cons kv rest ih =>
    intro m
    have hmax : max (m + 1) (1 + specDepth kv.2) = (max m (specDepth kv.2)) + 1 := by
      omega
    simp only [specDepthList, List.foldl_cons, hmax, ih]

/-- The depth the code compares to 2 is one more than the maximum depth of
the record's values (and 0 for the empty record, where both readings
agree below the threshold). -/
theorem specDepth_maxVal (r : JRecord) :
    specDepth (Jv.vobj r) ≤ 2 ↔ maxValDepth r ≤ 1 := by
  cases r with
  | nil => simp [specDepth, specDepthList, maxValDepth]
  | cons kv rest =>
    have h1 : specDepth (Jv.vobj (kv :: rest))
        = specDepthList rest (max 0 (1 + specDepth kv.2)) := by
      simp [specDepth, specDepthList]
    have h2 : max 0 (1 + specDepth kv.2) = (max 0 (specDepth kv.2)) + 1 := by omega
    rw [h1, h2, specDepthList_fold]
    have h3 : maxValDepth (kv :: rest)
        = rest.foldl (fun a kv2 => max a (specDepth kv2.2)) (max 0 (specDepth kv.2)) := by
      simp [maxValDepth, List.foldl_cons]
    rw [h3]
    omega

/-- C1, amended: for a single-record result with no explicit format and no
targetTool in the preferred-format table, resolution yields key-value when
the maximum nesting depth of the record's values (non-object values depth
0, object depth 1 + max depth of its own values, empty object depth 0,
arrays leaves) is at most 1, and json when it exceeds 1: the code compares
1 + that maximum (the depth of the record object itself) against 2. -/
theorem claim_C1 (r : JRecord) (md : Metadata) (fh : Option (List (Str × Str)))
    (tt : Option String)
    (htool : tt.bind (fun t => assocGet t targetToolFormatMap) = none) :
    (maxValDepth r ≤ 1 → resolveFormat ⟨md, [r], fh⟩ none tt = OutFormat.keyValue)
    ∧ (1 < maxValDepth r → resolveFormat ⟨md, [r], fh⟩ none tt = OutFormat.json) := by
  have hres := resolveFormat_heuristic md [r] fh tt htool
  have hdepth := getMaxDepth_spec (Jv.vobj r) 0
  have hiff := specDepth_maxVal r
  constructor
  · intro hle
    rw [hres]
    have hc : ¬(getMaxDepth (Jv.vobj r) 0 > 2) := by omega
    simp [detectFormatFromData, hc]
  · intro hgt
    rw [hres]
    have hc : getMaxDepth (Jv.vobj r) 0 > 2 := by omega
    simp [detectFormatFromData, hc]

/-- Witness for C1 at the record `{a: 1, b: {c: 2}}` of the claim: its
values have maximum depth 1 and resolution yields key-value. -/
theorem claim_C1_witness :
    maxValDepth [(("a").toList, Jv.vnum 1),
        (("b").toList, Jv.vobj [(("c").toList, Jv.vnum 2)])] ≤ 1
    ∧ resolveFormat ⟨⟨("json").toList, ("t").toList, OutFormat.json, 1, none, none⟩,
        [[(("a").toList, Jv.vnum 1),
          (("b").toList, Jv.vobj [(("c").toList, Jv.vnum 2)])]], none⟩ none none
      = OutFormat.keyValue := by
  have hd : maxValDepth [(("a").toList, Jv.vnum 1),
      (("b").toList, Jv.vobj [(("c").toList, Jv.vnum 2)])] ≤ 1 := by
    simp [maxValDepth, specDepth, specDepthList]
  exact ⟨hd, (claim_C1 _ _ _ none rfl).1 hd⟩

/-- C1 counterexample to the unamended claim: in the record
`{a: {b: {c: 1}}}` the maximum nesting depth of the values is 2, within the
claimed key-value bound, yet the code computes depth 3 for the record
object and resolution yields json. -/
theorem claim_C1_cex :
    maxValDepth [(("a").toList,
        Jv.vobj [(("b").toList, Jv.vobj [(("c").toList, Jv.vnum 1)])])] ≤ 2
    ∧ resolveFormat ⟨⟨("json").toList, ("t").toList, OutFormat.json, 1, none, none⟩,
        [[(("a").toList,
          Jv.vobj [(("b").toList, Jv.vobj [(("c").toList, Jv.vnum 1)])])]], none⟩ none none
      = OutFormat.json := by
  constructor
  · simp [maxValDepth, specDepth, specDepthList]
  · simp [resolveFormat, detectFormatFromData, getMaxDepth, getMaxDepthList]

theorem specDepthList_flat :
    ∀ (r : List (Str × Jv)) (m : Nat),
      (∀ kv ∈ r, ∀ fs : List (Str × Jv), kv.2 ≠ Jv.vobj fs) →
      specDepthList r m ≤ max m 1 := by
  intro r
  induction r with
  | nil =>
    intro m hflat
    simp [specDepthList]
  | cons kv rest ih =>
    intro m hflat
    have hv : specDepth kv.2 = 0 := by
      have hne := hflat kv (by simp)
      cases h2 : kv.2 with
      | vobj fs => exact absurd h2 (hne fs)
      | vundef => simp [specDepth]
      | vnull => simp [specDepth]
      | vbool b => simp [specDepth]
      | vnum k => simp [specDepth]
      | vstr s => simp [specDepth]
      | varr es => simp [specDepth]
    have hmax : max m (1 + specDepth kv.2) = max m 1 := by rw [hv]
    simp only [specDepthList]
    rw [hmax]
    have h3 := ih (max m 1) (fun kv2 h fs => hflat kv2 (List.mem_cons_of_mem _ h) fs)
    omega

/-- C10: the depth computation treats arrays as leaves, so a single record
whose direct values are all non-objects (objects occurring only inside
arrays) has computed depth at most 1 and resolves to key-value. -/
theorem claim_C10 (r : JRecord) (md : Metadata) (fh : Option (List (Str × Str)))
    (tt : Option String)
    (htool : tt.bind (fun t => assocGet t targetToolFormatMap) = none)
    (hflat : ∀ kv ∈ r, ∀ fs : List (Str × Jv), kv.2 ≠ Jv.vobj fs) :
    getMaxDepth (Jv.vobj r) 0 ≤ 1
    ∧ resolveFormat ⟨md, [r], fh⟩ none tt = OutFormat.keyValue := by
  have h1 : getMaxDepth (Jv.vobj r) 0 ≤ 1 := by
    rw [getMaxDepth_spec]
    have h2 : specDepth (Jv.vobj r) = specDepthList r 0 := by simp [specDepth]
    have h3 := specDepthList_flat r 0 hflat
    omega
  refine ⟨h1, ?_⟩
  rw [resolveFormat_heuristic _ _ _ _ htool]
  have hc : ¬(getMaxDepth (Jv.vobj r) 0 > 2) := by omega
  simp [detectFormatFromData, hc]

/-- Witness for C10 at the record `{a: [{b: {c: {d: 1}}}]}`. -/
theorem claim_C10_witness :
    getMaxDepth (Jv.vobj [(("a").toList,
        Jv.varr [Jv.vobj [(("b").toList,
          Jv.vobj [(("c").toList, Jv.vobj [(("d").toList, Jv.vnum 1)])])]])]) 0 ≤ 1
    ∧ resolveFormat ⟨⟨("json").toList, ("t").toList, OutFormat.json, 1, none, none⟩,
        [[(("a").toList, Jv.varr [Jv.vobj [(("b").toList,
          Jv.vobj [(("c").toList, Jv.vobj [(("d").toList, Jv.vnum 1)])])]])]], none⟩
        none none = OutFormat.keyValue := by
  refine claim_C10 _ _ _ none rfl ?_
  intro kv hkv fs
  simp at hkv
  rw [hkv]
  simp

theorem jsIsFlatVal_iff (v : Jv) :
    jsIsFlatVal v = true ↔ ∀ fs : List (Str × Jv), v ≠ Jv.vobj fs := by
  cases v <;> simp [jsIsFlatVal]

theorem hasLongStrVal_iff (v : Jv) :
    hasLongStrVal v = true ↔ ∃ s : Str, v = Jv.vstr s ∧ 200 < s.length := by
  cases v <;> simp [hasLongStrVal]

/-- C2: for a multi-record result with no explicit format and no targetTool
in the preferred-format table: all-flat values (arrays count as flat) with
more than 3 records yields csv; otherwise a string value longer than 200
characters yields markdown; otherwise json. -/
theorem claim_C2 (records : List JRecord) (md : Metadata)
    (fh : Option (List (Str × Str))) (tt : Option String)
    (hlen : 1 < records.length)
    (htool : tt.bind (fun t => assocGet t targetToolFormatMap) = none) :
    ((∀ r ∈ records, ∀ kv ∈ r, ∀ fs : List (Str × Jv), kv.2 ≠ Jv.vobj fs) →
      3 < records.length →
      resolveFormat ⟨md, records, fh⟩ none tt = OutFormat.csv)
    ∧ (¬((∀ r ∈ records, ∀ kv ∈ r, ∀ fs : List (Str × Jv), kv.2 ≠ Jv.vobj fs)
          ∧ 3 < records.length) →
      (∃ r ∈ records, ∃ kv ∈ r, ∃ s : Str, kv.2 = Jv.vstr s ∧ 200 < s.length) →
      resolveFormat ⟨md, records, fh⟩ none tt = OutFormat.markdown)
    ∧ (¬((∀ r ∈ records, ∀ kv ∈ r, ∀ fs : List (Str × Jv), kv.2 ≠ Jv.vobj fs)
          ∧ 3 < records.length) →
      ¬(∃ r ∈ records, ∃ kv ∈ r, ∃ s : Str, kv.2 = Jv.vstr s ∧ 200 < s.length) →
      resolveFormat ⟨md, records, fh⟩ none tt = OutFormat.json) := by
  have hres := resolveFormat_heuristic md records fh tt htool
  cases records with
  | nil => simp at hlen
  | cons r1 tl =>
  cases tl with
  | nil => simp at hlen
  | cons r2 rest =>
  have hflatIff :
      ((r1 :: r2 :: rest).all (fun r => r.all (fun kv => jsIsFlatVal kv.2)) = true)
        ↔ (∀ r ∈ (r1 :: r2 :: rest), ∀ kv ∈ r, ∀ fs : List (Str × Jv), kv.2 ≠ Jv.vobj fs) := by
    simp only [List.all_eq_true, jsIsFlatVal_iff]
  have hlongIff :
      ((r1 :: r2 :: rest).any (fun r => r.any (fun kv => hasLongStrVal kv.2)) = true)
        ↔ (∃ r ∈ (r1 :: r2 :: rest), ∃ kv ∈ r, ∃ s : Str, kv.2 = Jv.vstr s ∧ 200 < s.length) := by
    simp only [List.any_eq_true, hasLongStrVal_iff]
  have detect_multi :
      detectFormatFromData (r1 :: r2 :: rest)
        = (if ((r1 :: r2 :: rest).all (fun r => r.all (fun kv => jsIsFlatVal kv.2))
              && decide ((r1 :: r2 :: rest).length > 3)) then OutFormat.csv
           else if ((r1 :: r2 :: rest).any (fun r => r.any (fun kv => hasLongStrVal kv.2)))
           then OutFormat.markdown
           else OutFormat.json) := by
    simp only [detectFormatFromData]
  refine ⟨?_, ?_, ?_⟩
  · intro hflat hlen3
    rw [hres, detect_multi]
    have hc : ((r1 :: r2 :: rest).all (fun r => r.all (fun kv => jsIsFlatVal kv.2))
        && decide ((r1 :: r2 :: rest).length > 3)) = true := by
      rw [Bool.and_eq_true]
      exact ⟨hflatIff.mpr hflat, by simpa using hlen3⟩
    rw [if_pos hc]
  · intro hnot hlong
    rw [hres, detect_multi]
    have hc : ¬(((r1 :: r2 :: rest).all (fun r => r.all (fun kv => jsIsFlatVal kv.2))
        && decide ((r1 :: r2 :: rest).length > 3)) = true) := by
      rw [Bool.and_eq_true]
      rintro ⟨ha, hb⟩
      exact hnot ⟨hflatIff.mp ha, by simpa using hb⟩
    have hc2 : (r1 :: r2 :: rest).any (fun r => r.any (fun kv => hasLongStrVal kv.2)) = true :=
      hlongIff.mpr hlong
    rw [if_neg hc, if_pos hc2]
  · intro hnot hnolong
    rw [hres, detect_multi]
    have hc : ¬(((r1 :: r2 :: rest).all (fun r => r.all (fun kv => jsIsFlatVal kv.2))
        && decide ((r1 :: r2 :: rest).length > 3)) = true) := by
      rw [Bool.and_eq_true]
      rintro ⟨ha, hb⟩
      exact hnot ⟨hflatIff.mp ha, by simpa using hb⟩
    have hc2 : ¬((r1 :: r2 :: rest).any (fun r => r.any (fun kv => hasLongStrVal kv.2)) = true) :=
      fun h => hnolong (hlongIff.mp h)
    rw [if_neg hc, if_neg hc2]

/-- Witness for C2: four flat single-field records resolve to csv. -/
theorem claim_C2_witness :
    resolveFormat ⟨⟨("json").toList, ("t").toList, OutFormat.json, 4, none, none⟩,
      [[(("a").toList, Jv.vnum 1)], [(("a").toList, Jv.vnum 2)],
       [(("a").toList, Jv.vnum 3)], [(("a").toList, Jv.vnum 4)]], none⟩ none none
      = OutFormat.csv := by
  refine (claim_C2 _ _ _ none (by simp) rfl).1 ?_ (by simp)
  intro r hr kv hkv fs
  simp at hr
  rcases hr with h | h | h | h <;> (subst h; simp at hkv; rw [hkv]; simp)

/-- C4: a zero-record result resolves to json (no explicit format, no
targetTool hint), and the csv renderer emits exactly the comment line
followed by the no-data marker, with no header row. -/
theorem claim_C4 (result : ExtractionResult) (h : result.records = []) :
    resolveFormat result none none = OutFormat.json
    ∧ renderCsv result = ("# source: ").toList ++ result.metadata.source
        ++ (" | records: 0\n(no data)").toList := by
  obtain ⟨md, records, fh⟩ := result
  simp only at h
  subst h
  constructor
  · simp [resolveFormat, detectFormatFromData]
  · simp [renderCsv]

/-- Witness for C4 at a concrete empty result. -/
theorem claim_C4_witness :
    resolveFormat ⟨⟨("pdf").toList, ("t").toList, OutFormat.json, 0, none, none⟩, [], none⟩
        none none = OutFormat.json
    ∧ renderCsv ⟨⟨("pdf").toList, ("t").toList, OutFormat.json, 0, none, none⟩, [], none⟩
        = ("# source: ").toList ++ ("pdf").toList ++ (" | records: 0\n(no data)").toList :=
  claim_C4 _ rfl

/-- C7: a token cached at time T with expires_in 3600 (stored as expiring
at T + 3600s) is served from cache at any t strictly before T + 3300s
without a fetch, and any call at or after T + 3300s fetches anew. -/
theorem claim_C7 (tok : Str) (T t : Nat) (f : TokenFetch) :
    (getTokenStep none T { access_token := tok, expires_in := 3600 }).cache
        = some { accessToken := tok, expiresAt := T + 3600 * 1000 }
    ∧ (t < T + 3300 * 1000 →
        getTokenStep (some { accessToken := tok, expiresAt := T + 3600 * 1000 }) t f
          = { token := tok,
              cache := some { accessToken := tok, expiresAt := T + 3600 * 1000 },
              fetched := false })
    ∧ (T + 3300 * 1000 ≤ t →
        (getTokenStep (some { accessToken := tok, expiresAt := T + 3600 * 1000 }) t f).fetched
          = true) := by
  have hstep : getTokenStep (some { accessToken := tok, expiresAt := T + 3600 * 1000 }) t f
      = if T + 3600 * 1000 > t + 5 * 60 * 1000 then
          { token := tok,
            cache := some { accessToken := tok, expiresAt := T + 3600 * 1000 },
            fetched := false }
        else
          { token := f.access_token,
            cache := some { accessToken := f.access_token,
                            expiresAt := t + f.expires_in * 1000 },
            fetched := true } := rfl
  refine ⟨rfl, ?_, ?_⟩
  · intro h
    have hc : T + 3600 * 1000 > t + 5 * 60 * 1000 := by omega
    rw [hstep, if_pos hc]
  · intro h
    have hc : ¬(T + 3600 * 1000 > t + 5 * 60 * 1000) := by omega
    rw [hstep, if_neg hc]

/-- Witness for C7: cache hit just before the margin, fetch at it. -/
theorem claim_C7_witness :
    getTokenStep (some { accessToken := ("tk").toList, expiresAt := 0 + 3600 * 1000 })
        (3300 * 1000 - 1) { access_token := ("u").toList, expires_in := 100 }
      = { token := ("tk").toList,
          cache := some { accessToken := ("tk").toList, expiresAt := 0 + 3600 * 1000 },
          fetched := false }
    ∧ (getTokenStep (some { accessToken := ("tk").toList, expiresAt := 0 + 3600 * 1000 })
        (3300 * 1000) { access_token := ("u").toList, expires_in := 100 }).fetched = true :=
  ⟨(claim_C7 (("tk").toList) 0 (3300 * 1000 - 1)
      { access_token := ("u").toList, expires_in := 100 }).2.1 (by omega),
   (claim_C7 (("tk").toList) 0 (3300 * 1000)
      { access_token := ("u").toList, expires_in := 100 }).2.2 (by omega)⟩

theorem dataversePages_pc (fetch : Nat → ODataPage) (maxTop : Nat) :
    ∀ (fuel : Nat) (acc : List JRecord) (nl : Option Nat) (pc : Nat),
      5 - pc ≤ fuel → pc ≤ 5 → (dataversePages fetch maxTop acc nl pc).2.2 ≤ 5 := by
  intro fuel
  induction fuel with
  | zero =>
    intro acc nl pc hf hpc
    cases nl with
    | none => simp [dataversePages]; omega
    | some link =>
      have hc : ¬(acc.length < maxTop ∧ pc < 5) := by omega
      simp [dataversePages, hc]
      omega
  | succ fuel ih =>
    intro acc nl pc hf hpc
    cases nl with
    | none => simp [dataversePages]; omega
    | some link =>
      by_cases hc : acc.length < maxTop ∧ pc < 5
      · rw [dataversePages]
        rw [if_pos hc]
        exact ih _ _ (pc + 1) (by omega) (by omega)
      · simp [dataversePages, hc]
        omega

/-- C6, amended: pagination fetches at most 5 pages and returns at most
min(requestedTop, 500) records; the more-records warning is recorded
exactly when a continuation link remains AND the returned record count has
reached min(requestedTop, 500) — stopping at the page ceiling with fewer
records leaves the link unfollowed and records no warning. -/
theorem claim_C6 (fetch : Nat → ODataPage) (top : Option Nat) :
    (extractDataverseRun fetch top).records.length ≤ min (jsTopOr top) 500
    ∧ (extractDataverseRun fetch top).pageCount ≤ 5
    ∧ (extractDataverseRun fetch top).warnings
        = (if (extractDataverseRun fetch top).nextLink.isSome
              ∧ min (jsTopOr top) 500 ≤ (extractDataverseRun fetch top).records.length then
            [("More records available in Dataverse. Showing first ").toList
              ++ natStr (extractDataverseRun fetch top).records.length
              ++ (" results.").toList]
           else []) := by
  have hpc := dataversePages_pc fetch (min (jsTopOr top) 500) 5 [] (some 0) 0 (by omega) (by omega)
  rcases hE : dataversePages fetch (min (jsTopOr top) 500) [] (some 0) 0 with ⟨allRecords, nl, pc⟩
  rw [hE] at hpc
  have hrun : extractDataverseRun fetch top =
      { records := if allRecords.length > min (jsTopOr top) 500
            then allRecords.take (min (jsTopOr top) 500) else allRecords,
        nextLink := nl, pageCount := pc,
        warnings := if nl.isSome ∧ (if allRecords.length > min (jsTopOr top) 500
              then allRecords.take (min (jsTopOr top) 500) else allRecords).length
                ≥ min (jsTopOr top) 500 then
            [("More records available in Dataverse. Showing first ").toList
              ++ natStr (if allRecords.length > min (jsTopOr top) 500
                  then allRecords.take (min (jsTopOr top) 500) else allRecords).length
              ++ (" results.").toList]
          else [] } := by
    unfold extractDataverseRun
    dsimp only
    rw [hE]
  rw [hrun]
  dsimp only
  refine ⟨?_, by simpa using hpc, ?_⟩
  · by_cases h : allRecords.length > min (jsTopOr top) 500
    · rw [if_pos h]
      simp [List.length_take]
    · rw [if_neg h]
      omega
  · rfl

/-- C6 counterexample: with requestedTop 50 and pages of one record each,
fetching stops at the 5-page ceiling with a live continuation link, yet no
warning is recorded — refuting the claim that a warning is recorded
whenever a continuation link is still present when fetching stops. -/
theorem claim_C6_cex :
    (extractDataverseRun
        (fun i => { value := [[(("k").toList, Jv.vnum (Int.ofNat i))]],
                    nextLink := some (i + 1) }) (some 50)).nextLink = some 5
    ∧ (extractDataverseRun
        (fun i => { value := [[(("k").toList, Jv.vnum (Int.ofNat i))]],
                    nextLink := some (i + 1) }) (some 50)).pageCount = 5
    ∧ (extractDataverseRun
        (fun i => { value := [[(("k").toList, Jv.vnum (Int.ofNat i))]],
                    nextLink := some (i + 1) }) (some 50)).records.length = 5
    ∧ (extractDataverseRun
        (fun i => { value := [[(("k").toList, Jv.vnum (Int.ofNat i))]],
                    nextLink := some (i + 1) }) (some 50)).warnings = [] := by
  refine ⟨?_, ?_, ?_, ?_⟩ <;>
    simp [extractDataverseRun, dataversePages, jsTopOr, stripODataAnnotations]

/-- C5, amended: for every source text, in modes imports, comments and
full, extraction under the unknown-extension default language produces
exactly the records of language typescript (imports falls back to the
typescript pattern; comments and full ignore the language).  Structure and
exports modes are excluded: structure can differ in the inferred type tag
and exports matches no branch for an unknown language. -/
theorem claim_C5 (ext : Str) (content : Str) (mode : ExtractionMode)
    (hext : assocGet (lowerStr ext) languageMap = none)
    (hmode : mode = ExtractionMode.imports ∨ mode = ExtractionMode.comments
      ∨ mode = ExtractionMode.full) :
    extractRecords content (detectLanguage ext) mode
      = extractRecords content ("typescript") mode := by
  have hdl : detectLanguage ext = ("unknown" : String) := by
    unfold detectLanguage
    rw [hext]
    rfl
  rw [hdl]
  rcases hmode with h | h | h <;> subst h <;> rfl

/-- Witness for C5: the imports mode on a one-line import under an
unresolved extension. -/
theorem claim_C5_witness :
    extractRecords (("import x").toList) (detectLanguage ((".foo").toList)) ExtractionMode.imports
      = extractRecords (("import x").toList) ("typescript") ExtractionMode.imports :=
  claim_C5 ((".foo").toList) (("import x").toList) ExtractionMode.imports (by decide) (Or.inl rfl)

/-- C5 counterexample: with the unknown-extension language, exports mode
produces no records where typescript produces one, and structure mode tags
a type alias as method instead of type — so extraction under an unknown
extension does not always equal extraction as typescript. -/
theorem claim_C5_cex :
    extractRecords (("export foo").toList) (detectLanguage ((".foo").toList)) ExtractionMode.exports
        ≠ extractRecords (("export foo").toList) ("typescript") ExtractionMode.exports
    ∧ extractRecords (("type F = x").toList) (detectLanguage ((".foo").toList)) ExtractionMode.struct
        ≠ extractRecords (("type F = x").toList) ("typescript") ExtractionMode.struct := by
  constructor <;> decide

theorem find?_setfn_ne (m : JRecord) (k k2 : Str) (v : Jv) (h : k2 ≠ k) :
    (m.map (fun kv => if kv.1 = k then (k, v) else kv)).find? (fun kv => kv.1 = k2)
      = m.find? (fun kv => kv.1 = k2) := by
  induction m with
  | nil => rfl
  | cons kv rest ih =>
    by_cases hk : kv.1 = k
    · have hne : ¬((k, v).1 = k2) := fun hh => h hh.symm
      have hne2 : ¬(kv.1 = k2) := fun hh => h (by rw [← hh, hk])
      simp only [List.map_cons, if_pos hk, List.find?_cons, hne, hne2, decide_eq_true_eq]
      simp [hne, hne2, ih]
    · by_cases hk2 : kv.1 = k2
      · simp [List.map_cons, if_neg hk, List.find?_cons, hk2, h]
      · simp [List.map_cons, if_neg hk, List.find?_cons, hk2, ih]

theorem find?_setfn_self (m : JRecord) (k : Str) (v : Jv)
    (h : m.any (fun kv => kv.1 = k) = true) :
    (m.map (fun kv => if kv.1 = k then (k, v) else kv)).find? (fun kv => kv.1 = k)
      = some (k, v) := by
  induction m with
  | nil => simp at h
  | cons kv rest ih =>
    by_cases hk : kv.1 = k
    · simp [List.map_cons, if_pos hk, List.find?_cons]
    · have h2 : rest.any (fun kv => kv.1 = k) = true := by
        simp [List.any_cons, hk] at h
        simpa using h
      simp [List.map_cons, if_neg hk, List.find?_cons, hk, ih h2]

theorem lookupKey_setKey_self (m : JRecord) (k : Str) (v : Jv) :
    lookupKey (setKey m k v) k = v := by
  unfold setKey
  by_cases h : m.any (fun kv => kv.1 = k) = true
  · rw [if_pos h]
    simp [lookupKey, find?_setfn_self m k v h]
  · rw [if_neg h]
    have hnone : m.find? (fun kv => kv.1 = k) = none := by
      rw [List.find?_eq_none]
      intro kv hkv
      simp only [Bool.not_eq_true, decide_eq_false_iff_not]
      intro hh
      exact h (List.any_eq_true.mpr ⟨kv, hkv, by simp [hh]⟩)
    simp [lookupKey, List.find?_append, hnone, List.find?_cons]

theorem lookupKey_setKey_ne (m : JRecord) (k k2 : Str) (v : Jv) (h : k2 ≠ k) :
    lookupKey (setKey m k v) k2 = lookupKey m k2 := by
  unfold setKey
  by_cases hany : m.any (fun kv => kv.1 = k) = true
  · rw [if_pos hany]
    simp [lookupKey, find?_setfn_ne m k k2 v h]
  · rw [if_neg hany]
    have hlast : ¬((k, v).1 = k2) := fun hh => h hh.symm
    simp [lookupKey, List.find?_append, List.find?_cons, hlast]

theorem keys_setKey (m : JRecord) (k : Str) (v : Jv) (f : Str) :
    (f ∈ m.map Prod.fst ∨ f = k) → f ∈ (setKey m k v).map Prod.fst := by
  intro hf
  unfold setKey
  by_cases hany : m.any (fun kv => kv.1 = k) = true
  · rw [if_pos hany]
    have hkeys : (m.map (fun kv => if kv.1 = k then (k, v) else kv)).map Prod.fst
        = m.map Prod.fst := by
      rw [List.map_map]
      apply List.map_congr_left
      intro kv _
      by_cases hk : kv.1 = k
      · simp [hk]
      · simp [hk]
    rw [hkeys]
    rcases hf with h | h
    · exact h
    · rcases List.any_eq_true.mp hany with ⟨kv, hkv, hkk⟩
      simp at hkk
      exact h ▸ hkk ▸ List.mem_map_of_mem Prod.fst hkv
  · rw [if_neg hany]
    rcases hf with h | h
    · simp [List.map_append]
      left
      simpa using h
    · simp [List.map_append, h]

/-- Every entry of `setKey m k v` whose key is `f` carries the value
`undefined`, provided that was true of `m` and that `k = f` implies
`v = undefined`. -/
theorem inv_setKey (m : JRecord) (k : Str) (v : Jv) (f : Str)
    (hm : ∀ kv ∈ m, kv.1 = f → kv.2 = Jv.vundef)
    (hkv : k = f → v = Jv.vundef) :
    ∀ kv ∈ setKey m k v, kv.1 = f → kv.2 = Jv.vundef := by
  intro kv hmem hkey
  unfold setKey at hmem
  by_cases hany : m.any (fun kv => kv.1 = k) = true
  · rw [if_pos hany] at hmem
    rcases List.mem_map.mp hmem with ⟨kv0, hkv0, heq⟩
    by_cases hk : kv0.1 = k
    · rw [if_pos hk] at heq
      rw [← heq] at hkey ⊢
      exact hkv hkey
    · rw [if_neg hk] at heq
      rw [← heq] at hkey ⊢
      exact hm kv0 hkv0 hkey
  · rw [if_neg hany] at hmem
    rcases List.mem_append.mp hmem with h | h
    · exact hm kv h hkey
    · have hkv2 : kv = (k, v) := by simpa using h
      subst hkv2
      exact hkv hkey

/-- The undefined-at-`f` invariant survives the whole mapping loop when the
first record matches `f` neither exactly nor by containment. -/
theorem mapFieldsLoop_inv (src : JRecord) (f : Str)
    (hne : src.find? (fun kv => lowerStr kv.1 = lowerStr f) = none)
    (hns : src.find? (fun kv =>
        isSubstr (lowerStr f) (lowerStr kv.1)
          || isSubstr (lowerStr kv.1) (lowerStr f)) = none) :
    ∀ (flds : List Str) (acc : JRecord),
      (∀ kv ∈ acc, kv.1 = f → kv.2 = Jv.vundef) →
      ∀ kv ∈ mapFieldsLoop src flds acc, kv.1 = f → kv.2 = Jv.vundef := by
  intro flds
  induction flds with
  | nil =>
    intro acc hacc
    simpa [mapFieldsLoop] using hacc
  | cons e rest ih =>
    intro acc hacc
    by_cases hef : e = f
    · subst hef
      rw [mapFieldsLoop, hne, hns]
      exact ih _ (inv_setKey acc e Jv.vundef e hacc (fun _ => rfl))
    · rw [mapFieldsLoop]
      cases h1 : src.find? (fun kv => lowerStr kv.1 = lowerStr e) with
      | some kv0 => exact ih _ (inv_setKey acc e kv0.2 f hacc (fun hh => absurd hh hef))
      | none =>
        cases h2 : src.find? (fun kv =>
            isSubstr (lowerStr e) (lowerStr kv.1)
              || isSubstr (lowerStr kv.1) (lowerStr e)) with
        | some kv0 => exact ih _ (inv_setKey acc e kv0.2 f hacc (fun hh => absurd hh hef))
        | none => exact ih _ (inv_setKey acc e Jv.vundef f hacc (fun _ => rfl))

/-- The mapping loop only grows the key set of the accumulator. -/
theorem mapFieldsLoop_keys (src : JRecord) (f : Str) :
    ∀ (flds : List Str) (acc : JRecord),
      f ∈ acc.map Prod.fst →
      f ∈ (mapFieldsLoop src flds acc).map Prod.fst := by
  intro flds
  induction flds with
  | nil =>
    intro acc hacc
    simpa [mapFieldsLoop] using hacc
  | cons e rest ih =>
    intro acc hacc
    rw [mapFieldsLoop]
    cases h1 : src.find? (fun kv => lowerStr kv.1 = lowerStr e) with
    | some kv0 => exact ih _ (keys_setKey acc e kv0.2 f (Or.inl hacc))
    | none =>
      cases h2 : src.find? (fun kv =>
          isSubstr (lowerStr e) (lowerStr kv.1)
            || isSubstr (lowerStr kv.1) (lowerStr e)) with
      | some kv0 => exact ih _ (keys_setKey acc e kv0.2 f (Or.inl hacc))
      | none => exact ih _ (keys_setKey acc e Jv.vundef f (Or.inl hacc))

/-- Every expected field occurs among the keys of the mapped object. -/
theorem mapFieldsLoop_mem (src : JRecord) (f : Str) :
    ∀ (flds : List Str) (acc : JRecord),
      f ∈ flds →
      f ∈ (mapFieldsLoop src flds acc).map Prod.fst := by
  intro flds
  induction flds with
  | nil =>
    intro acc hf
    simp at hf
  | cons e rest ih =>
    intro acc hf
    rcases List.mem_cons.mp hf with hef | hf2
    · subst hef
      rw [mapFieldsLoop]
      cases h1 : src.find? (fun kv => lowerStr kv.1 = lowerStr f) with
      | some kv0 =>
        exact mapFieldsLoop_keys src f rest _ (keys_setKey acc f kv0.2 f (Or.inr rfl))
      | none =>
        cases h2 : src.find? (fun kv =>
            isSubstr (lowerStr f) (lowerStr kv.1)
              || isSubstr (lowerStr kv.1) (lowerStr f)) with
        | some kv0 =>
          exact mapFieldsLoop_keys src f rest _ (keys_setKey acc f kv0.2 f (Or.inr rfl))
        | none =>
          exact mapFieldsLoop_keys src f rest _ (keys_setKey acc f Jv.vundef f (Or.inr rfl))
    · rw [mapFieldsLoop]
      cases h1 : src.find? (fun kv => lowerStr kv.1 = lowerStr e) with
      | some kv0 => exact ih _ hf2
      | none =>
        cases h2 : src.find? (fun kv =>
            isSubstr (lowerStr e) (lowerStr kv.1)
              || isSubstr (lowerStr kv.1) (lowerStr e)) with
        | some kv0 => exact ih _ hf2
        | none => exact ih _ hf2

theorem serVal_none_iff (sb : Str) (v : Jv) : serVal sb v = none ↔ v = Jv.vundef := by
  cases v <;> simp [serVal]

/-- The pretty JSON serializer ignores undefined-valued members: the member
list of an object equals that of the object with undefined members
filtered away. -/
theorem serMembers_filter (ind : Str) (m : List (Str × Jv)) :
    serMembers ind m = serMembers ind (m.filter (fun kv => !(jvIsUndef kv.2))) := by
  induction m with
  | nil => rfl
  | cons kv rest ih =>
    cases hv : serVal ind kv.2 with
    | none =>
      have hund : kv.2 = Jv.vundef := (serVal_none_iff ind kv.2).mp hv
      have hfil : (!(jvIsUndef kv.2)) = false := by rw [hund]; rfl
      simp only [serMembers, hv, List.filter_cons, hfil, if_false]
      exact ih
    | some str =>
      have hfil : (!(jvIsUndef kv.2)) = true := by
        cases hk : kv.2
        · rw [hk] at hv
          simp [serVal] at hv
        all_goals simp [jvIsUndef]
      simp only [serMembers, hv, List.filter_cons, hfil, if_true]
      rw [ih]

/-- C3, amended: when a targetTool of the expected-field-list table is
supplied with at least one record and the rendering is json, every
expected field with neither a case-insensitive exact key match nor a
case-insensitive containment match in the first record is present in the
mapped object with the value undefined — but the JSON serializer omits
undefined-valued members, so the field does not appear among the rendered
members of mappedFields; no error is raised. -/
theorem claim_C3 (records : List JRecord) (r : JRecord) (rest : List JRecord)
    (tt : String) (flds : List Str) (f : Str)
    (hrec : records = r :: rest)
    (hflds : assocGet tt targetToolFields = some flds)
    (hf : f ∈ flds)
    (hne : r.find? (fun kv => lowerStr kv.1 = lowerStr f) = none)
    (hns : r.find? (fun kv =>
        isSubstr (lowerStr f) (lowerStr kv.1)
          || isSubstr (lowerStr kv.1) (lowerStr f)) = none) :
    ∃ m, mapFieldsToTarget records tt = some m
      ∧ f ∈ m.map Prod.fst
      ∧ lookupKey m f = Jv.vundef
      ∧ (∀ ind, serMembers ind m = serMembers ind (m.filter (fun kv => !(jvIsUndef kv.2))))
      ∧ f ∉ (m.filter (fun kv => !(jvIsUndef kv.2))).map Prod.fst := by
  subst hrec
  refine ⟨mapFieldsLoop r flds [], ?_, ?_, ?_, ?_, ?_⟩
  · rw [mapFieldsToTarget, hflds]
  · exact mapFieldsLoop_mem r f flds [] hf
  · have hinv := mapFieldsLoop_inv r f hne hns flds [] (by intro kv hkv; simp at hkv)
    unfold lookupKey
    cases hfind : (mapFieldsLoop r flds []).find? (fun kv => kv.1 = f) with
    | none => rfl
    | some kv =>
      have hmem := List.mem_of_find?_eq_some hfind
      have hkey : kv.1 = f := by simpa using List.find?_some hfind
      simpa using hinv kv hmem hkey
  · intro ind
    exact serMembers_filter ind (mapFieldsLoop r flds [])
  · have hinv := mapFieldsLoop_inv r f hne hns flds [] (by intro kv hkv; simp at hkv)
    intro hmem
    rcases List.mem_map.mp hmem with ⟨kv, hkv, hkey⟩
    rcases List.mem_filter.mp hkv with ⟨hkv2, hcond⟩
    have := hinv kv hkv2 hkey
    rw [this] at hcond
    simp [jvIsUndef] at hcond

/-- Witness for C3: target tool add_customer, record with only Name and
industry, unmatched expected field goLiveDate. -/
theorem claim_C3_witness :
    ∃ m, mapFieldsToTarget
          [[(("Name").toList, Jv.vstr (("Acme").toList)),
            (("industry").toList, Jv.vstr (("Retail").toList))]] ("add_customer") = some m
      ∧ (("goLiveDate").toList) ∈ m.map Prod.fst
      ∧ lookupKey m (("goLiveDate").toList) = Jv.vundef
      ∧ (∀ ind, serMembers ind m = serMembers ind (m.filter (fun kv => !(jvIsUndef kv.2))))
      ∧ (("goLiveDate").toList) ∉ (m.filter (fun kv => !(jvIsUndef kv.2))).map Prod.fst :=
  claim_C3 _ _ [] ("add_customer") _ (("goLiveDate").toList) rfl rfl (by decide) rfl rfl

/-- C3 counterexample: the mapped object assigns goLiveDate the value
undefined, yet the rendered JSON output does not contain the name
goLiveDate anywhere — the field is silently omitted from the rendered JSON
rather than surfaced as an explicit unset marker. -/
theorem claim_C3_cex :
    mapFieldsToTarget
        [[(("Name").toList, Jv.vstr (("Acme").toList)),
          (("industry").toList, Jv.vstr (("Retail").toList))]] ("add_customer")
      = some
        [ (("name").toList, Jv.vstr (("Acme").toList)),
          (("industry").toList, Jv.vstr (("Retail").toList)),
          (("region").toList, Jv.vundef),
          (("engagementType").toList, Jv.vundef),
          (("d365Modules").toList, Jv.vundef),
          (("goLiveDate").toList, Jv.vundef),
          (("assignedArchitect").toList, Jv.vundef) ]
    ∧ isSubstr (("goLiveDate").toList)
        (renderJson
          ⟨⟨("json").toList, ("T").toList, OutFormat.json, 1, none, none⟩,
            [[(("Name").toList, Jv.vstr (("Acme").toList)),
              (("industry").toList, Jv.vstr (("Retail").toList))]], none⟩
          (mapFieldsToTarget
            [[(("Name").toList, Jv.vstr (("Acme").toList)),
              (("industry").toList, Jv.vstr (("Retail").toList))]] ("add_customer")))
      = false := by
  constructor
  · rfl
  · simp [renderJson, mapFieldsToTarget, mapFieldsLoop, metadataJv, serVal,
      serElems, serMembers, wrapObj, wrapArr, quoteJson, escJsonChar, lowerStr, setKey,
      assocGet, targetToolFields, gap2, formatName, intStr, natStr, natDigitsTo, hex4,
      quoteChar, lbrace, rbrace, joinSep]
    decide

theorem takeWhile_append_all {p : Char → Bool} (a b : Str) (h : ∀ x ∈ a, p x = true) :
    (a ++ b).takeWhile p = a ++ b.takeWhile p := by
  induction a with
  | nil => simp
  | cons c cs ih =>
    have hc : p c = true := h c (by simp)
    simp only [List.cons_append, List.takeWhile_cons, hc, if_true]
    rw [ih (fun x hx => h x (by simp [hx]))]

theorem takeWhile_append_ne {p : Char → Bool} (a b : Str) (h : ¬ a.takeWhile p = a) :
    (a ++ b).takeWhile p = a.takeWhile p := by
  induction a with
  | nil => simp at h
  | cons c cs ih =>
    cases hc : p c with
    | false => simp [List.takeWhile_cons, hc]
    | true =>
      have hcs : ¬ cs.takeWhile p = cs := by
        intro he
        exact h (by simp [List.takeWhile_cons, hc, he])
      simp only [List.cons_append, List.takeWhile_cons, hc, if_true]
      rw [ih hcs]

theorem rewriteBrackets_append_dot (b : Str) :
    ∀ a : Str, rewriteBrackets a = a →
      rewriteBrackets (a ++ '.' :: b) = a ++ '.' :: rewriteBrackets b := by
  intro a
  induction a with
  | nil =>
    intro _
    rw [List.nil_append, rewriteBrackets, if_neg (by decide), List.nil_append]
  | cons c a2 ih =>
    intro h
    by_cases hc : c = '['
    · subst hc
      rw [rewriteBrackets, if_pos rfl] at h
      dsimp only at h
      split at h
      · simp at h
      · rename_i hguard
        have ha2 : rewriteBrackets a2 = a2 := by simpa using h
        rw [List.cons_append, rewriteBrackets, if_pos rfl]
        dsimp only
        rw [if_neg ?hg, ih ha2]
        case _ => rfl
        case hg =>
          by_cases hall : a2.takeWhile Char.isDigit = a2
          · intro hcon
            have hds : (a2 ++ '.' :: b).takeWhile Char.isDigit = a2 := by
              rw [takeWhile_append_all a2 ('.' :: b) (List.takeWhile_eq_self_iff.mp hall)]
              simp [List.takeWhile_cons]
            rw [hds] at hcon
            rw [List.drop_left] at hcon
            simp at hcon
          · intro hcon
            have hds : (a2 ++ '.' :: b).takeWhile Char.isDigit = a2.takeWhile Char.isDigit :=
              takeWhile_append_ne a2 ('.' :: b) hall
            rw [hds] at hcon
            rcases hcon with ⟨hne, hhd⟩
            have hpre := List.takeWhile_prefix (l := a2) Char.isDigit
            have hlen : (a2.takeWhile Char.isDigit).length < a2.length := by
              have hle := hpre.length_le
              rcases Nat.lt_or_ge (a2.takeWhile Char.isDigit).length a2.length with hlt | hge
              · exact hlt
              · exact absurd (hpre.eq_of_length (Nat.le_antisymm hle hge)) hall
            rw [List.drop_append_of_le_length (Nat.le_of_lt hlen)] at hhd
            cases hdrop : a2.drop ((a2.takeWhile Char.isDigit).length) with
            | nil => rw [hdrop] at hhd; simp [List.length_drop] at hdrop; omega
            | cons x xs =>
              rw [hdrop] at hhd
              simp at hhd
              exact hguard ⟨hne, by rw [hdrop]; simp [hhd]⟩
    · rw [rewriteBrackets, if_neg hc] at h
      have ha2 : rewriteBrackets a2 = a2 := by simpa using h
      rw [List.cons_append, rewriteBrackets, if_neg hc, ih ha2]
      rfl

theorem rewriteStar_append_dot (b : Str) :
    ∀ a : Str, rewriteStar a = a → rewriteStar (a ++ '.' :: b) = a ++ '.' :: rewriteStar b := by
  intro a
  induction a using rewriteStar.induct with
  | case1 rest ih =>
    intro h
    simp only [rewriteStar] at h
    simp at h
  | case2 c rest hne ih =>
    intro h
    have hred : rewriteStar (c :: rest) = c :: rewriteStar rest := by
      simp only [rewriteStar]
    rw [hred] at h
    have hrest : rewriteStar rest = rest := by simpa using h
    have hne2 : ∀ (r1 : List Char), c = '[' → rest ++ '.' :: b = '*' :: ']' :: r1 → False := by
      intro r1 hcb heq
      cases rest with
      | nil => simp at heq
      | cons x xs =>
        cases xs with
        | nil =>
          simp at heq
        | cons y ys =>
          simp at heq
          exact hne ys hcb (by rw [heq.1, heq.2.1])
    have hred2 : rewriteStar (c :: (rest ++ '.' :: b)) = c :: rewriteStar (rest ++ '.' :: b) := by
      simp only [rewriteStar]
    rw [List.cons_append, hred2, ih hrest]
    rfl
  | case3 =>
    intro _
    have hred : rewriteStar ('.' :: b) = '.' :: rewriteStar b := by
      simp only [rewriteStar]
    rw [List.nil_append, hred, List.nil_append]

theorem splitDot_no_dot : ∀ k : Str, ('.' ∈ k → False) → splitDot k = [k] := by
  intro k
  induction k with
  | nil => intro _; rfl
  | cons c rest ih =>
    intro h
    have hc : ¬ c = '.' := fun he => h (by simp [he])
    rw [splitDot, if_neg hc, ih (fun hm => h (by simp [hm]))]

theorem splitDot_append_dot : ∀ (k q : Str), ('.' ∈ k → False) →
    splitDot (k ++ '.' :: q) = k :: splitDot q := by
  intro k
  induction k with
  | nil =>
    intro q _
    rw [List.nil_append, splitDot, if_pos rfl]
  | cons c rest ih =>
    intro q h
    have hc : ¬ c = '.' := fun he => h (by simp [he])
    rw [List.cons_append, splitDot, if_neg hc, ih q (fun hm => h (by simp [hm]))]

theorem dot_free_append_inj : ∀ (a b x y : Str), ('.' ∈ a → False) → ('.' ∈ b → False) →
    a ++ '.' :: x = b ++ '.' :: y → a = b ∧ x = y := by
  intro a
  induction a with
  | nil =>
    intro b x y _ hb heq
    cases b with
    | nil => simpa using heq
    | cons d b2 =>
      simp at heq
      exact absurd (List.mem_cons.mpr (Or.inl heq.1)) (fun hm => hb hm)
  | cons c a2 ih =>
    intro b x y ha hb heq
    cases b with
    | nil =>
      simp at heq
      exact absurd (List.mem_cons.mpr (Or.inl heq.1.symm)) (fun hm => ha hm)
    | cons d b2 =>
      simp only [List.cons_append, List.cons.injEq] at heq
      have := ih b2 x y (fun hm => ha (by simp [hm])) (fun hm => hb (by simp [hm])) heq.2
      exact ⟨by rw [heq.1, this.1], this.2⟩

theorem goodKey_parts (k : Str) (h : goodKey k = true) :
    ¬ k = [] ∧ ('.' ∈ k → False) ∧ rewriteBrackets k = k ∧ rewriteStar k = k := by
  rw [goodKey] at h
  simp only [Bool.and_eq_true, decide_eq_true_eq] at h
  obtain ⟨⟨⟨h1, h2⟩, h3⟩, h4⟩ := h
  refine ⟨?_, ?_, h3, h4⟩
  · intro he
    rw [he] at h1
    simp at h1
  · intro hm
    simp [List.contains] at h2
    exact h2 hm

theorem goodObj_parts (k : Str) (v : Jv) (rest : List (Str × Jv))
    (h : goodObj ((k, v) :: rest) = true) :
    goodKey k = true ∧ (k ∈ rest.map Prod.fst → False) ∧ goodVal v = true
      ∧ goodObj rest = true := by
  rw [goodObj] at h
  simp only [Bool.and_eq_true] at h
  obtain ⟨⟨⟨g1, g2⟩, g3⟩, g4⟩ := h
  refine ⟨g1, ?_, g3, g4⟩
  intro hm
  simp only [Bool.not_eq_true'] at g2
  rw [List.any_eq_false] at g2
  rcases List.mem_map.mp hm with ⟨kv, hkv, hk⟩
  have := g2 kv hkv
  simp [hk] at this

theorem goodObj_key_good : ∀ (fs : List (Str × Jv)), goodObj fs = true →
    ∀ k, k ∈ fs.map Prod.fst → goodKey k = true := by
  intro fs
  induction fs with
  | nil => intro _ k hk; simp at hk
  | cons kv rest ih =>
    intro h k hk
    obtain ⟨k1, v1⟩ := kv
    have hp := goodObj_parts k1 v1 rest h
    rcases List.mem_map.mp hk with ⟨kv2, hkv2, hk2⟩
    rcases List.mem_cons.mp hkv2 with he | hm
    · rw [he] at hk2; rw [← hk2]; exact hp.1
    · exact ih hp.2.2.2 k (List.mem_map.mpr ⟨kv2, hm, hk2⟩)

theorem goodVal_obj_parts (gs : List (Str × Jv)) (h : goodVal (Jv.vobj gs) = true) :
    goodObj gs = true := by
  rw [goodVal] at h
  simp only [Bool.and_eq_true] at h
  exact h.2

theorem entriesOf_pre : ∀ (n : Nat) (fs : List (Str × Jv)), sizeOf fs ≤ n →
    goodObj fs = true → ∀ pre : Str, ¬ pre = [] →
    entriesOf fs pre = (entriesOf fs []).map (fun kv => (pre ++ '.' :: kv.1, kv.2)) := by
  intro n
  induction n with
  | zero =>
    intro fs hs
    cases fs with
    | nil => intro _ pre _; simp [entriesOf]
    | cons kv rest => simp at hs
  | succ n ih =>
    intro fs hs hg pre hpre
    cases fs with
    | nil => simp [entriesOf]
    | cons kv rest =>
      obtain ⟨k, v⟩ := kv
      have hp := goodObj_parts k v rest hg
      have hsr : sizeOf rest ≤ n := by simp at hs; omega
      cases v with
      | vobj gs =>
        have hknil : ¬ k = [] := (goodKey_parts k hp.1).1
        have hgs : goodObj gs = true := goodVal_obj_parts gs hp.2.2.1
        have hsg : sizeOf gs ≤ n := by simp at hs; omega
        simp only [entriesOf, if_neg hpre, if_true, eq_self_iff_true]
        rw [ih gs hsg hgs (pre ++ '.' :: k) (by simp), ih gs hsg hgs k hknil,
            ih rest hsr hp.2.2.2 pre hpre]
        simp [List.map_map, Function.comp, List.append_assoc]
      | vundef =>
        simp only [entriesOf, if_neg hpre, if_true, eq_self_iff_true]
        rw [ih rest hsr hp.2.2.2 pre hpre]
        simp
      | vnull =>
        simp only [entriesOf, if_neg hpre, if_true, eq_self_iff_true]
        rw [ih rest hsr hp.2.2.2 pre hpre]
        simp
      | vbool b0 =>
        simp only [entriesOf, if_neg hpre, if_true, eq_self_iff_true]
        rw [ih rest hsr hp.2.2.2 pre hpre]
        simp
      | vnum m =>
        simp only [entriesOf, if_neg hpre, if_true, eq_self_iff_true]
        rw [ih rest hsr hp.2.2.2 pre hpre]
        simp
      | vstr s =>
        simp only [entriesOf, if_neg hpre, if_true, eq_self_iff_true]
        rw [ih rest hsr hp.2.2.2 pre hpre]
        simp
      | varr items =>
        simp only [entriesOf, if_neg hpre, if_true, eq_self_iff_true]
        rw [ih rest hsr hp.2.2.2 pre hpre]
        simp

theorem entriesOf_shape : ∀ (n : Nat) (fs : List (Str × Jv)), sizeOf fs ≤ n →
    goodObj fs = true → ∀ key v, (key, v) ∈ entriesOf fs [] →
    ∃ k2, k2 ∈ fs.map Prod.fst ∧ (key = k2 ∨ ∃ suf, key = k2 ++ '.' :: suf) := by
  intro n
  induction n with
  | zero =>
    intro fs hs
    cases fs with
    | nil => intro _ key v hm; simp [entriesOf] at hm
    | cons kv rest => simp at hs
  | succ n ih =>
    intro fs hs hg key v hm
    cases fs with
    | nil => simp [entriesOf] at hm
    | cons kv rest =>
      obtain ⟨k, w⟩ := kv
      have hp := goodObj_parts k w rest hg
      have hsr : sizeOf rest ≤ n := by simp at hs; omega
      cases w
      case vobj gs =>
        have hknil : ¬ k = [] := (goodKey_parts k hp.1).1
        have hgs : goodObj gs = true := goodVal_obj_parts gs hp.2.2.1
        have hsg : sizeOf gs ≤ n := by simp at hs; omega
        simp only [entriesOf, if_true, eq_self_iff_true] at hm
        rw [entriesOf_pre n gs hsg hgs k hknil] at hm
        rcases List.mem_append.mp hm with hl | hr
        · rcases List.mem_map.mp hl with ⟨kv2, _, hkv2⟩
          have : key = k ++ '.' :: kv2.1 := by
            have := congrArg Prod.fst hkv2
            simpa using this.symm
          exact ⟨k, by simp, Or.inr ⟨kv2.1, this⟩⟩
        · rcases ih rest hsr hp.2.2.2 key v hr with ⟨k2, hk2, hsh⟩
          exact ⟨k2, by simp [List.mem_map] at hk2 ⊢; exact Or.inr hk2, hsh⟩
      all_goals
        simp only [entriesOf, if_true, eq_self_iff_true] at hm
        rcases List.mem_cons.mp hm with he | hr
        · exact ⟨k, by simp, Or.inl (by simpa using congrArg Prod.fst he)⟩
        · rcases ih rest hsr hp.2.2.2 key _ hr with ⟨k2, hk2, hsh⟩
          exact ⟨k2, by simp [List.mem_map] at hk2 ⊢; exact Or.inr hk2, hsh⟩

theorem shape_dot_free (fs : List (Str × Jv)) (hg : goodObj fs = true)
    (k : Str) (hk : ('.' ∈ k → False)) (s : Str) (key v : _)
    (hm : (key, v) ∈ entriesOf fs []) (hkey : key = k ++ '.' :: s ∨ key = k) :
    ∃ k2, k2 ∈ fs.map Prod.fst ∧ k2 = k := by
  rcases entriesOf_shape (sizeOf fs) fs (Nat.le_refl _) hg key v hm with ⟨k2, hk2, hsh⟩
  have hk2good := goodObj_key_good fs hg k2 hk2
  have hk2dot := (goodKey_parts k2 hk2good).2.1
  refine ⟨k2, hk2, ?_⟩
  rcases hsh with he | ⟨suf, he⟩
  · rcases hkey with hke | hke
    · rw [hke] at he
      exact absurd (he ▸ (by simp : ('.' : Char) ∈ k ++ '.' :: s)) hk2dot
    · rw [hke] at he; exact he.symm
  · rcases hkey with hke | hke
    · rw [hke] at he
      exact (dot_free_append_inj k2 k suf s hk2dot hk he.symm).1
    · rw [hke] at he
      exact absurd (he ▸ (by simp : ('.' : Char) ∈ k2 ++ '.' :: suf)) hk

theorem entriesOf_nodup : ∀ (n : Nat) (fs : List (Str × Jv)), sizeOf fs ≤ n →
    goodObj fs = true → ((entriesOf fs []).map Prod.fst).Nodup := by
  intro n
  induction n with
  | zero =>
    intro fs hs
    cases fs with
    | nil => intro _; simp [entriesOf]
    | cons kv rest => simp at hs
  | succ n ih =>
    intro fs hs hg
    cases fs with
    | nil => simp [entriesOf]
    | cons kv rest =>
      obtain ⟨k, w⟩ := kv
      have hp := goodObj_parts k w rest hg
      have hkg := goodKey_parts k hp.1
      have hsr : sizeOf rest ≤ n := by simp at hs; omega
      cases w
      case vobj gs =>
        have hgs : goodObj gs = true := goodVal_obj_parts gs hp.2.2.1
        have hsg : sizeOf gs ≤ n := by simp at hs; omega
        simp only [entriesOf, if_true, eq_self_iff_true]
        rw [entriesOf_pre n gs hsg hgs k hkg.1]
        rw [List.map_append, List.nodup_append]
        refine ⟨?_, ih rest hsr hp.2.2.2, ?_⟩
        · rw [List.map_map]
          have hcomp : (Prod.fst ∘ fun (kv : Str × Jv) => (k ++ '.' :: kv.1, kv.2))
              = (fun s : Str => k ++ '.' :: s) ∘ Prod.fst := rfl
          rw [hcomp, ← List.map_map]
          refine List.Nodup.map ?_ (ih gs hsg hgs)
          intro x y hxy
          simpa using List.append_cancel_left (hxy : k ++ '.' :: x = k ++ '.' :: y)
        · intro key hkl hkr
          rw [List.map_map] at hkl
          rcases List.mem_map.mp hkl with ⟨kv2, _, hkv2⟩
          simp only [Function.comp] at hkv2
          rcases List.mem_map.mp hkr with ⟨kv3, hkv3, hkv3e⟩
          have hkv3m : (key, kv3.2) ∈ entriesOf rest [] := by
            rw [← hkv3e]; exact hkv3
          rcases shape_dot_free rest hp.2.2.2 k hkg.2.1 kv2.1 key kv3.2 hkv3m
              (Or.inl hkv2.symm) with ⟨k2, hk2mem, hk2e⟩
          rw [hk2e] at hk2mem
          exact hp.2.1 hk2mem
      all_goals
        simp only [entriesOf, if_true, eq_self_iff_true, List.map_cons, List.nodup_cons]
        refine ⟨?_, ih rest hsr hp.2.2.2⟩
        intro hmem
        rcases List.mem_map.mp hmem with ⟨kv3, hkv3, hkv3e⟩
        have hkv3m : (k, kv3.2) ∈ entriesOf rest [] := by
          rw [← hkv3e]; exact hkv3
        rcases shape_dot_free rest hp.2.2.2 k hkg.2.1 [] k kv3.2 hkv3m
            (Or.inr rfl) with ⟨k2, hk2mem, hk2e⟩
        rw [hk2e] at hk2mem
        exact hp.2.1 hk2mem

theorem assignAll_fresh : ∀ (xs m : List (Str × Jv)),
    ((m ++ xs).map Prod.fst).Nodup → assignAll m xs = m ++ xs := by
  intro xs
  induction xs with
  | nil => intro m _; simp [assignAll]
  | cons kv xs2 ih =>
    intro m hnd
    obtain ⟨k, v⟩ := kv
    have hkm : ¬ m.any (fun kv2 => kv2.1 = k) = true := by
      intro hany
      rw [List.any_eq_true] at hany
      rcases hany with ⟨kv2, hkv2, hke⟩
      simp only [decide_eq_true_eq] at hke
      rw [List.map_append, List.nodup_append] at hnd
      exact hnd.2.2 (List.mem_map.mpr ⟨kv2, hkv2, hke⟩) (by simp)
    have hset : setKey m k v = m ++ [(k, v)] := by
      rw [setKey, if_neg hkm]
    rw [assignAll]
    simp only [List.foldl_cons]
    have : List.foldl (fun acc kv2 => setKey acc kv2.1 kv2.2) (setKey m k v) xs2
        = assignAll (setKey m k v) xs2 := rfl
    rw [this, hset, ih (m ++ [(k, v)]) (by simpa using hnd)]
    simp

theorem lookupKey_mem_nodup : ∀ (m : List (Str × Jv)), (m.map Prod.fst).Nodup →
    ∀ k v, (k, v) ∈ m → lookupKey m k = v := by
  intro m
  induction m with
  | nil => intro _ k v hm; simp at hm
  | cons kv rest ih =>
    intro hnd k v hm
    obtain ⟨k1, v1⟩ := kv
    simp only [List.map_cons, List.nodup_cons] at hnd
    rcases List.mem_cons.mp hm with he | hr
    · injection he with hk hv
      subst hk
      subst hv
      rw [lookupKey, List.find?_cons]
      simp
    · have hne : ¬ k1 = k := by
        intro he2
        exact hnd.1 (List.mem_map.mpr ⟨(k, v), hr, he2.symm⟩)
      rw [lookupKey, List.find?_cons]
      have : (decide ((k1, v1).1 = k)) = false := by
        simp [hne]
      rw [this]
      exact ih hnd.2 k v hr

theorem resolveSegs_vobj_step (fields : List (Str × Jv)) (seg : Str) (t : List Str) :
    resolveSegs (Jv.vobj fields) (seg :: t) = resolveSegs (lookupKey fields seg) t := by
  rw [resolveSegs]

theorem resolveSegs_nil (cur : Jv) : resolveSegs cur [] = cur := by
  rw [resolveSegs]

theorem lookupKey_cons_ne (k1 : Str) (v1 : Jv) (m : List (Str × Jv)) (k : Str)
    (h : ¬ k1 = k) : lookupKey ((k1, v1) :: m) k = lookupKey m k := by
  rw [lookupKey, lookupKey, List.find?_cons]
  have : (decide ((k1, v1).1 = k)) = false := by simp [h]
  rw [this]

theorem lookupKey_cons_self (k : Str) (v : Jv) (m : List (Str × Jv)) :
    lookupKey ((k, v) :: m) k = v := by
  rw [lookupKey, List.find?_cons]
  simp

theorem assignAll_append (m xs ys : List (Str × Jv)) :
    assignAll m (xs ++ ys) = assignAll (assignAll m xs) ys := by
  rw [assignAll, assignAll, assignAll, List.foldl_append]

theorem flattenGo_entries : ∀ (n : Nat) (fs : List (Str × Jv)), sizeOf fs ≤ n →
    goodObj fs = true → ∀ (pre : Str) (acc : List (Str × Jv)),
    flattenGo fs pre acc = assignAll acc (entriesOf fs pre) := by
  intro n
  induction n with
  | zero =>
    intro fs hs
    cases fs with
    | nil => intro _ pre acc; simp [flattenGo, entriesOf, assignAll]
    | cons kv rest => simp at hs
  | succ n ih =>
    intro fs hs hg pre acc
    cases fs with
    | nil => simp [flattenGo, entriesOf, assignAll]
    | cons kv rest =>
      obtain ⟨k, w⟩ := kv
      have hp := goodObj_parts k w rest hg
      have hkg := goodKey_parts k hp.1
      have hsr : sizeOf rest ≤ n := by simp at hs; omega
      cases w
      case vobj gs =>
        have hgs : goodObj gs = true := goodVal_obj_parts gs hp.2.2.1
        have hsg : sizeOf gs ≤ n := by simp at hs; omega
        have hpre2 : ¬ (if pre = [] then k else pre ++ '.' :: k) = [] := by
          split
          · exact hkg.1
          · intro he
            rcases List.append_eq_nil.mp he with ⟨_, h2⟩
            simp at h2
        have hnd2 : ((entriesOf gs (if pre = [] then k else pre ++ '.' :: k)).map
            Prod.fst).Nodup := by
          rw [entriesOf_pre (sizeOf gs) gs (Nat.le_refl _) hgs _ hpre2, List.map_map]
          have hcomp : (Prod.fst ∘ fun (kv : Str × Jv) =>
              ((if pre = [] then k else pre ++ '.' :: k) ++ '.' :: kv.1, kv.2))
              = (fun s : Str => (if pre = [] then k else pre ++ '.' :: k) ++ '.' :: s)
                ∘ Prod.fst := rfl
          rw [hcomp, ← List.map_map]
          refine List.Nodup.map ?_ (entriesOf_nodup (sizeOf gs) gs (Nat.le_refl _) hgs)
          intro x y hxy
          simpa using List.append_cancel_left hxy
        rw [flattenGo, entriesOf]
        rw [flattenObject, ih gs hsg hgs _ [], assignAll_append]
        rw [assignAll_fresh (entriesOf gs (if pre = [] then k else pre ++ '.' :: k)) []
          (by simpa using hnd2)]
        rw [List.nil_append, ih rest hsr hp.2.2.2 pre _]
      all_goals
        try (rw [flattenGo, entriesOf, ih rest hsr hp.2.2.2 pre _]; rfl)
      all_goals
        intro gs2 h2
        exact Jv.noConfusion h2

theorem entries_resolve_lift (k : Str) (w : Jv) (rest : List (Str × Jv))
    (hgr : goodObj rest = true) (hkrest : k ∈ rest.map Prod.fst → False)
    (key : Str) (v : Jv) (hr : (key, v) ∈ entriesOf rest [])
    (h3 : resolveSegs (Jv.vobj rest) (splitDot key) = v) :
    resolveSegs (Jv.vobj ((k, w) :: rest)) (splitDot key) = v := by
  rcases entriesOf_shape (sizeOf rest) rest (Nat.le_refl _) hgr key v hr with ⟨k2, hk2mem, hsh⟩
  have hk2g := goodObj_key_good rest hgr k2 hk2mem
  have hk2dot := (goodKey_parts k2 hk2g).2.1
  have hk2ne : ¬ k2 = k := fun he => hkrest (he ▸ hk2mem)
  have hsplit : ∃ t, splitDot key = k2 :: t := by
    rcases hsh with he | ⟨suf, he⟩
    · exact ⟨[], by rw [he, splitDot_no_dot k2 hk2dot]⟩
    · exact ⟨splitDot suf, by rw [he, splitDot_append_dot k2 suf hk2dot]⟩
  rcases hsplit with ⟨t, htk⟩
  rw [htk] at h3 ⊢
  rw [resolveSegs_vobj_step] at h3 ⊢
  rw [lookupKey_cons_ne k w rest k2 (fun he => hk2ne he.symm)]
  exact h3

theorem entries_resolve : ∀ (n : Nat) (fs : List (Str × Jv)), sizeOf fs ≤ n →
    goodObj fs = true → ∀ key v, (key, v) ∈ entriesOf fs [] →
    rewriteBrackets key = key ∧ rewriteStar key = key
      ∧ resolveSegs (Jv.vobj fs) (splitDot key) = v := by
  intro n
  induction n with
  | zero =>
    intro fs hs
    cases fs with
    | nil => intro _ key v hm; simp [entriesOf] at hm
    | cons kv rest => simp at hs
  | succ n ih =>
    intro fs hs hg key v hm
    cases fs with
    | nil => simp [entriesOf] at hm
    | cons kv rest =>
      obtain ⟨k, w⟩ := kv
      have hp := goodObj_parts k w rest hg
      have hkg := goodKey_parts k hp.1
      have hsr : sizeOf rest ≤ n := by simp at hs; omega
      cases w
      case vobj gs =>
        have hgs : goodObj gs = true := goodVal_obj_parts gs hp.2.2.1
        have hsg : sizeOf gs ≤ n := by simp at hs; omega
        simp only [entriesOf, if_true, eq_self_iff_true] at hm
        rw [entriesOf_pre (sizeOf gs) gs (Nat.le_refl _) hgs k hkg.1] at hm
        rcases List.mem_append.mp hm with hl | hr
        · rcases List.mem_map.mp hl with ⟨kv2, hkv2mem, hkv2e⟩
          have hkey : key = k ++ '.' :: kv2.1 := by
            have := congrArg Prod.fst hkv2e
            simpa using this.symm
          have hval : v = kv2.2 := by
            have := congrArg Prod.snd hkv2e
            simpa using this.symm
          have hkv2mem2 : (kv2.1, kv2.2) ∈ entriesOf gs [] := by
            exact hkv2mem
          rcases ih gs hsg hgs kv2.1 kv2.2 hkv2mem2 with ⟨g1, g2, g3⟩
          refine ⟨?_, ?_, ?_⟩
          · rw [hkey, rewriteBrackets_append_dot kv2.1 k hkg.2.2.1, g1]
          · rw [hkey, rewriteStar_append_dot kv2.1 k hkg.2.2.2, g2]
          · rw [hkey, hval, splitDot_append_dot k kv2.1 hkg.2.1,
              resolveSegs_vobj_step, lookupKey_cons_self]
            exact g3
        · rcases ih rest hsr hp.2.2.2 key v hr with ⟨h1, h2, h3⟩
          exact ⟨h1, h2, entries_resolve_lift k _ rest hp.2.2.2 hp.2.1 key v hr h3⟩
      all_goals
        simp only [entriesOf, if_true, eq_self_iff_true] at hm
        rcases List.mem_cons.mp hm with he | hr
        · injection he with hkey hv
          subst hkey
          refine ⟨hkg.2.2.1, hkg.2.2.2, ?_⟩
          rw [splitDot_no_dot key hkg.2.1, resolveSegs_vobj_step, lookupKey_cons_self,
            resolveSegs_nil, hv]
        · rcases ih rest hsr hp.2.2.2 key v hr with ⟨h1, h2, h3⟩
          exact ⟨h1, h2, entries_resolve_lift k _ rest hp.2.2.2 hp.2.1 key v hr h3⟩

/-- C9, amended: for every nested object whose keys are nonempty, dot-free
and untouched by the bracket rewrites of the resolver, with keys unique
within each object and non-array object values nonempty, every entry of the
flattened object resolves against the original object to its flattened
value, and reading the flattened object at that key returns the same
value. -/
theorem claim_C9 (fs : List (Str × Jv)) (h : goodObj fs = true) (key : Str) (v : Jv)
    (hmem : (key, v) ∈ flattenObject fs []) :
    resolveJsonPath (Jv.vobj fs) key = v ∧ lookupKey (flattenObject fs []) key = v := by
  have hflat : flattenObject fs [] = entriesOf fs [] := by
    rw [flattenObject, flattenGo_entries (sizeOf fs) fs (Nat.le_refl _) h [] []]
    exact (assignAll_fresh (entriesOf fs []) []
      (by simpa using entriesOf_nodup (sizeOf fs) fs (Nat.le_refl _) h)).trans
      (List.nil_append _)
  rw [hflat] at hmem
  rcases entries_resolve (sizeOf fs) fs (Nat.le_refl _) h key v hmem with ⟨h1, h2, h3⟩
  constructor
  · rw [resolveJsonPath, h1, h2]
    exact h3
  · rw [hflat]
    exact lookupKey_mem_nodup (entriesOf fs [])
      (entriesOf_nodup (sizeOf fs) fs (Nat.le_refl _) h) key v hmem

/-- Witness for C9 at the specified example: flattening the embedding of
`{a:{b:1,c:{d:2}}}` yields a.b = 1 and a.c.d = 2, and resolving a.c.d
against the original returns 2. -/
theorem claim_C9_witness :
    goodObj [((("a").toList), Jv.vobj [((("b").toList), Jv.vnum 1),
        ((("c").toList), Jv.vobj [((("d").toList), Jv.vnum 2)])])] = true
    ∧ flattenObject [((("a").toList), Jv.vobj [((("b").toList), Jv.vnum 1),
        ((("c").toList), Jv.vobj [((("d").toList), Jv.vnum 2)])])] []
      = [((("a.b").toList), Jv.vnum 1), ((("a.c.d").toList), Jv.vnum 2)]
    ∧ resolveJsonPath (Jv.vobj [((("a").toList), Jv.vobj [((("b").toList), Jv.vnum 1),
        ((("c").toList), Jv.vobj [((("d").toList), Jv.vnum 2)])])]) (("a.c.d").toList)
      = Jv.vnum 2
    ∧ lookupKey (flattenObject [((("a").toList), Jv.vobj [((("b").toList), Jv.vnum 1),
        ((("c").toList), Jv.vobj [((("d").toList), Jv.vnum 2)])])] []) (("a.c.d").toList)
      = Jv.vnum 2 := by
  have hgood : goodObj [((("a").toList), Jv.vobj [((("b").toList), Jv.vnum 1),
      ((("c").toList), Jv.vobj [((("d").toList), Jv.vnum 2)])])] = true := by
    simp [goodObj, goodKey, goodVal, rewriteBrackets, rewriteStar, List.contains]
  have hflat : flattenObject [((("a").toList), Jv.vobj [((("b").toList), Jv.vnum 1),
      ((("c").toList), Jv.vobj [((("d").toList), Jv.vnum 2)])])] []
      = [((("a.b").toList), Jv.vnum 1), ((("a.c.d").toList), Jv.vnum 2)] := by
    simp [flattenObject, flattenGo, assignAll, setKey]
  have hmem : ((("a.c.d").toList), Jv.vnum 2) ∈ flattenObject [((("a").toList),
      Jv.vobj [((("b").toList), Jv.vnum 1),
        ((("c").toList), Jv.vobj [((("d").toList), Jv.vnum 2)])])] [] := by
    rw [hflat]
    simp
  have hc := claim_C9 _ hgood (("a.c.d").toList) (Jv.vnum 2) hmem
  exact ⟨hgood, hflat, hc.1, hc.2⟩

/-- C9 counterexample to the unamended claim: the dot-free key a[0] is
rewritten by the resolver bracket pass, so resolution returns undefined
although flattening keeps the key; and a top-level empty key with an object
value flattens to keys that drop the prefix, which then resolve to
undefined against the original. -/
theorem claim_C9_cex :
    (flattenObject [((("a[0]").toList), Jv.vnum 1)] []
        = [((("a[0]").toList), Jv.vnum 1)]
      ∧ resolveJsonPath (Jv.vobj [((("a[0]").toList), Jv.vnum 1)]) (("a[0]").toList)
        = Jv.vundef)
    ∧ (flattenObject [(([]), Jv.vobj [((("a").toList), Jv.vnum 1)])] []
        = [((("a").toList), Jv.vnum 1)]
      ∧ resolveJsonPath (Jv.vobj [(([]), Jv.vobj [((("a").toList), Jv.vnum 1)])])
          (("a").toList)
        = Jv.vundef) := by
  refine ⟨⟨?_, ?_⟩, ?_, ?_⟩
  · simp [flattenObject, flattenGo, assignAll, setKey]
  · simp [resolveJsonPath, rewriteBrackets, rewriteStar, splitDot, resolveSegs,
      lookupKey, jsParseInt, digitsVal, jsIndex, isJsWs, joinDot, joinSep]
  · simp [flattenObject, flattenGo, assignAll, setKey]
  · simp [resolveJsonPath, rewriteBrackets, rewriteStar, splitDot, resolveSegs,
      lookupKey, jsParseInt, digitsVal, jsIndex, isJsWs, joinDot, joinSep]

theorem ofNat_toNat_small (m : Nat) (hm : m < 55296) : (Char.ofNat m).toNat = m := by
  simp [Char.ofNat, Char.toNat]
  split
  · rfl
  · rename_i hv
    exfalso
    exact hv (by omega)

theorem toLower_inv (x c : Char) (hc : c.toNat < 97 ∨ 122 < c.toNat) (h : x.toLower = c) :
    x = c := by
  rw [Char.toLower] at h
  split at h
  · rename_i hup
    exfalso
    have hval : (Char.ofNat (x.toNat + 32)).toNat = x.toNat + 32 := by
      apply ofNat_toNat_small
      omega
    rw [← h, hval] at hc
    omega
  · exact h

theorem toLower_ne_gt (x c : Char) (hx : x.toLower = c) (hc : ¬ c = '>') : ¬ x = '>' := by
  intro he
  rw [he] at hx
  exact hc (by rw [← hx]; decide)

theorem replaceBy_id (m : Char → Str → Option Nat) (rep : Str) :
    ∀ l : Str, (∀ c rest, (c :: rest) <:+ l → m c rest = none) → replaceBy m rep l = l := by
  intro l
  induction l with
  | nil => intro _; rw [replaceBy]
  | cons c l2 ih =>
    intro h
    rw [replaceBy, h c l2 (List.suffix_refl _)]
    rw [ih (fun c2 rest2 hs => h c2 rest2 (hs.trans (List.suffix_cons c l2)))]

theorem drop_takeWhile (p : Char → Bool) :
    ∀ l : Str, l.drop ((l.takeWhile p).length) = l.dropWhile p := by
  intro l
  induction l with
  | nil => rfl
  | cons c l2 ih =>
    rw [List.takeWhile_cons, List.dropWhile_cons]
    cases hc : p c with
    | true => simpa using ih
    | false => simp

theorem hasTagShaped_none : ∀ l : Str, hasTagShaped l = false →
    ∀ c rest, (c :: rest) <:+ l → tagMatch c rest = none := by
  intro l
  induction l with
  | nil =>
    intro _ c rest hs
    have := hs.length_le
    simp at this
  | cons a l2 ih =>
    intro h c rest hs
    rw [hasTagShaped] at h
    simp only [Bool.or_eq_false_iff] at h
    rcases List.suffix_cons_iff.mp hs with he | hs2
    · injection he with h1 h2
      subst h1
      subst h2
      cases hm : tagMatch c rest with
      | none => rfl
      | some n => rw [hm] at h; simp at h
    · exact ih h.2 c rest hs2

theorem entMatch_none (p0 : Char) (ps : Str) : ∀ l : Str,
    isSubstr (p0 :: ps) l = false →
    ∀ c rest, (c :: rest) <:+ l → entMatch p0 ps c rest = none := by
  intro l
  induction l with
  | nil =>
    intro _ c rest hs
    have := hs.length_le
    simp at this
  | cons a l2 ih =>
    intro h c rest hs
    rw [isSubstr] at h
    simp only [Bool.or_eq_false_iff] at h
    rcases List.suffix_cons_iff.mp hs with he | hs2
    · injection he with h1 h2
      subst h1
      subst h2
      rw [entMatch]
      rw [if_neg]
      intro hcon
      simp only [Bool.and_eq_true, decide_eq_true_eq] at hcon
      have hpre : (p0 :: ps).isPrefixOf (c :: rest) = true := by
        rw [List.isPrefixOf]
        simp [hcon.1, hcon.2]
      rw [hpre] at h
      simp at h
    · exact ih h.2 c rest hs2

theorem tagMatch_of_parts (rest : Str) (pre : Char) (mid tail2 : Str)
    (hr : rest = pre :: mid ++ '>' :: tail2) (hpre : ¬ pre = '>')
    (hmid : ∀ x ∈ mid, ¬ x = '>') :
    ¬ tagMatch '<' rest = none := by
  rw [tagMatch, if_pos rfl]
  have htw : rest.takeWhile (fun x => x ≠ '>') = pre :: mid := by
    rw [hr]
    rw [show (pre :: mid ++ '>' :: tail2) = (pre :: mid) ++ '>' :: tail2 from rfl]
    rw [takeWhile_append_all (pre :: mid) ('>' :: tail2) ?_]
    · simp [List.takeWhile_cons]
    · intro x hx
      rcases List.mem_cons.mp hx with he | hm
      · subst he; simpa using hpre
      · simpa using hmid x hm
  have hdrop : rest.drop ((pre :: mid).length) = '>' :: tail2 := by
    rw [hr, show (pre :: mid ++ '>' :: tail2) = (pre :: mid) ++ '>' :: tail2 from rfl,
      List.drop_left]
  rw [htw]
  dsimp only
  rw [if_pos ⟨by simp, by rw [hdrop]; rfl⟩]
  simp

theorem brMatch_tag (c : Char) (rest : Str) (n : Nat) (h : brMatch c rest = some n) :
    ¬ tagMatch c rest = none := by
  rw [brMatch.eq_def] at h
  by_cases hc : c = '<'
  · subst hc
    rw [if_pos rfl] at h
    cases rest with
    | nil => simp at h
    | cons c1 r1 =>
      cases r1 with
      | nil => simp at h
      | cons c2 r2 =>
        dsimp only at h
        split at h
        · rename_i hbr
          simp only [Bool.and_eq_true, decide_eq_true_eq] at hbr
          have hc1 : ¬ c1 = '>' := toLower_ne_gt c1 'b' hbr.1 (by decide)
          have hc2 : ¬ c2 = '>' := toLower_ne_gt c2 'r' hbr.2 (by decide)
          have hsplit : r2 = r2.takeWhile isJsWs ++ r2.dropWhile isJsWs :=
            (List.takeWhile_append_dropWhile isJsWs r2).symm
          have hws : ∀ x ∈ r2.takeWhile isJsWs, ¬ x = '>' := by
            intro x hx
            have := List.mem_takeWhile_imp hx
            intro he
            rw [he] at this
            simp [isJsWs] at this
          rw [← drop_takeWhile isJsWs r2] at hsplit
          split at h
          · rename_i sfx heq
            apply tagMatch_of_parts (c1 :: c2 :: r2) c1 (c2 :: (r2.takeWhile isJsWs ++ ['/']))
              sfx ?_ hc1 ?_
            · conv_lhs => rw [hsplit, heq]
              simp
            · intro x hx
              rcases List.mem_cons.mp hx with he | hm
              · subst he; exact hc2
              · rcases List.mem_append.mp hm with hw | hsl
                · exact hws x hw
                · simp at hsl
                  subst hsl
                  decide
          · rename_i sfx heq
            apply tagMatch_of_parts (c1 :: c2 :: r2) c1 (c2 :: r2.takeWhile isJsWs)
              sfx ?_ hc1 ?_
            · conv_lhs => rw [hsplit, heq]
              simp
            · intro x hx
              rcases List.mem_cons.mp hx with he | hm
              · subst he; exact hc2
              · exact hws x hm
          · simp at h
        · simp at h
  · rw [if_neg hc] at h
    simp at h

theorem liMatch_tag (c : Char) (rest : Str) (n : Nat) (h : liMatch c rest = some n) :
    ¬ tagMatch c rest = none := by
  rw [liMatch.eq_def] at h
  by_cases hc : c = '<'
  · subst hc
    rw [if_pos rfl] at h
    cases rest with
    | nil => simp at h
    | cons c1 r1 =>
      cases r1 with
      | nil => simp at h
      | cons c2 r2 =>
        dsimp only at h
        split at h
        · rename_i hli
          simp only [Bool.and_eq_true, decide_eq_true_eq] at hli
          have hc1 : ¬ c1 = '>' := toLower_ne_gt c1 'l' hli.1 (by decide)
          have hc2 : ¬ c2 = '>' := toLower_ne_gt c2 'i' hli.2 (by decide)
          split at h
          · rename_i hhd
            have hsplit : r2 = r2.takeWhile (fun x => x ≠ '>')
                ++ r2.drop ((r2.takeWhile (fun x => x ≠ '>')).length) := by
              conv_lhs => rw [← List.takeWhile_append_dropWhile (fun x => x ≠ '>') r2]
              rw [drop_takeWhile]
            rw [drop_takeWhile] at hhd
            cases hdw : r2.dropWhile (fun x => x ≠ '>') with
            | nil => rw [hdw] at hhd; simp at hhd
            | cons d t =>
              rw [hdw] at hhd
              simp at hhd
              subst hhd
              apply tagMatch_of_parts (c1 :: c2 :: r2) c1
                (c2 :: r2.takeWhile (fun x => x ≠ '>')) t ?_ hc1 ?_
              · conv_lhs => rw [hsplit]
                rw [drop_takeWhile, hdw]
                simp
              · intro x hx
                rcases List.mem_cons.mp hx with he | hm
                · subst he; exact hc2
                · have := List.mem_takeWhile_imp hm
                  simpa using this
          · simp at h
        · simp at h
  · rw [if_neg hc] at h
    simp at h

theorem ciPrefix_mid : ∀ (mid rest : Str), (∀ x ∈ mid, ¬ x = '>') →
    ciPrefix (mid ++ ['>']) rest = true →
    ∃ pre rest2, rest = pre ++ '>' :: rest2 ∧ pre.length = mid.length
      ∧ ∀ x ∈ pre, ¬ x = '>' := by
  intro mid
  induction mid with
  | nil =>
    intro rest _ h
    cases rest with
    | nil => simp [ciPrefix] at h
    | cons r0 rest1 =>
      rw [List.nil_append, ciPrefix] at h
      simp only [Bool.and_eq_true, decide_eq_true_eq] at h
      have : r0 = '>' := toLower_inv r0 '>' (by decide) h.1
      subst this
      exact ⟨[], rest1, rfl, rfl, by simp⟩
  | cons m mid2 ih =>
    intro rest hmid h
    cases rest with
    | nil => simp [ciPrefix] at h
    | cons r0 rest1 =>
      rw [List.cons_append, ciPrefix] at h
      simp only [Bool.and_eq_true, decide_eq_true_eq] at h
      rcases ih rest1 (fun x hx => hmid x (by simp [hx])) h.2 with ⟨pre, rest2, he, hl, hp⟩
      refine ⟨r0 :: pre, rest2, by rw [he]; rfl, by simp [hl], ?_⟩
      intro x hx
      rcases List.mem_cons.mp hx with he2 | hm2
      · subst he2
        exact toLower_ne_gt x m h.1 (hmid m (by simp))
      · exact hp x hm2

theorem closeMatch_tag (pat : Str) (mid : Str) (hpat : pat = mid ++ ['>']) (hne : ¬ mid = [])
    (hmid : ∀ x ∈ mid, ¬ x = '>') (c : Char) (rest : Str) (n : Nat)
    (h : closeMatch pat c rest = some n) : ¬ tagMatch c rest = none := by
  rw [closeMatch] at h
  split at h
  · rename_i hcp
    simp only [Bool.and_eq_true, decide_eq_true_eq] at hcp
    subst hpat
    rcases ciPrefix_mid mid rest hmid hcp.2 with ⟨pre, rest2, he, hl, hp⟩
    cases pre with
    | nil =>
      rw [List.length_nil] at hl
      cases mid with
      | nil => exact absurd rfl hne
      | cons a b => simp at hl
    | cons p0 pre2 =>
      rw [hcp.1]
      exact tagMatch_of_parts rest p0 pre2 rest2 he (hp p0 (by simp))
        (fun x hx => hp x (by simp [hx]))
  · simp at h

theorem dropWhile_head_false (p : Char → Bool) (l : Str) (x : Char)
    (h : (l.dropWhile p).head? = some x) : p x = false := by
  have := List.head?_dropWhile_not p l
  rw [h] at this
  exact this

theorem dropWhile_id_of_head (p : Char → Bool) (l : Str)
    (h : ∀ x, l.head? = some x → p x = false) : l.dropWhile p = l := by
  cases l with
  | nil => rfl
  | cons c rest =>
    rw [List.dropWhile_cons, h c rfl]
    simp

theorem headRun_cons_nl (t : Str) : headRun ('\n' :: t) = 1 + headRun t := by
  simp [headRun, List.takeWhile_cons]
  omega

theorem headRun_cons_other (c : Char) (t : Str) (hc : ¬ c = '\n') : headRun (c :: t) = 0 := by
  simp [headRun, List.takeWhile_cons, hc]

theorem headRun_pos (l : Str) (h : 1 ≤ headRun l) : ∃ t, l = '\n' :: t := by
  cases l with
  | nil => simp [headRun] at h
  | cons c t =>
    by_cases hc : c = '\n'
    · exact ⟨t, by rw [hc]⟩
    · rw [headRun_cons_other c t hc] at h
      omega

theorem hasDoubleSpace_cons (a : Char) (l2 : Str) :
    hasDoubleSpace (a :: l2) = true ↔
      (∃ d t, l2 = d :: t ∧ isHT a = true ∧ isHT d = true) ∨ hasDoubleSpace l2 = true := by
  cases l2 with
  | nil =>
    simp [show hasDoubleSpace [a] = false from rfl, show hasDoubleSpace [] = false from rfl]
  | cons d t =>
    rw [hasDoubleSpace]
    simp only [Bool.or_eq_true, Bool.and_eq_true]
    constructor
    · rintro (⟨h1, h2⟩ | h)
      · exact Or.inl ⟨d, t, rfl, h1, h2⟩
      · exact Or.inr h
    · rintro (⟨d2, t2, he, h1, h2⟩ | h)
      · injection he with he1 he2
        subst he1
        exact Or.inl ⟨h1, h2⟩
      · exact Or.inr h

theorem hasTripleNl_cons (a : Char) (l2 : Str) :
    hasTripleNl (a :: l2) = true ↔ (a = '\n' ∧ 2 ≤ headRun l2) ∨ hasTripleNl l2 = true := by
  cases l2 with
  | nil =>
    simp [show hasTripleNl [a] = false from rfl, show hasTripleNl [] = false from rfl, headRun]
  | cons b l3 =>
    cases l3 with
    | nil =>
      by_cases hb : b = '\n'
      · subst hb
        rw [show hasTripleNl ['\n'] = false from rfl, headRun_cons_nl]
        simp [hasTripleNl, headRun]
      · rw [headRun_cons_other b [] hb]
        simp [hasTripleNl]
    | cons c l4 =>
      have hhr : (2 ≤ headRun (b :: c :: l4)) ↔ (b = '\n' ∧ c = '\n') := by
        by_cases hb : b = '\n'
        · subst hb
          by_cases hc : c = '\n'
          · subst hc
            rw [headRun_cons_nl, headRun_cons_nl]
            simp
            omega
          · rw [headRun_cons_nl, headRun_cons_other c l4 hc]
            simp [hc]
        · rw [headRun_cons_other b (c :: l4) hb]
          simp [hb]
      rw [hasTripleNl]
      simp only [Bool.or_eq_true, Bool.and_eq_true, decide_eq_true_eq, hhr]
      tauto

theorem hasDoubleSpace_tail (a : Char) (l2 : Str) (h : hasDoubleSpace l2 = true) :
    hasDoubleSpace (a :: l2) = true :=
  (hasDoubleSpace_cons a l2).mpr (Or.inr h)

theorem hasTripleNl_tail (a : Char) (l2 : Str) (h : hasTripleNl l2 = true) :
    hasTripleNl (a :: l2) = true :=
  (hasTripleNl_cons a l2).mpr (Or.inr h)

theorem hasDoubleSpace_suffix : ∀ (l s : Str), s <:+ l → hasDoubleSpace s = true →
    hasDoubleSpace l = true := by
  intro l
  induction l with
  | nil =>
    intro s hs h
    rw [List.suffix_nil.mp hs] at h
    simp [show hasDoubleSpace [] = false from rfl] at h
  | cons a l2 ih =>
    intro s hs h
    rcases List.suffix_cons_iff.mp hs with he | hs2
    · rw [← he]; exact h
    · exact hasDoubleSpace_tail a l2 (ih s hs2 h)

theorem hasTripleNl_suffix : ∀ (l s : Str), s <:+ l → hasTripleNl s = true →
    hasTripleNl l = true := by
  intro l
  induction l with
  | nil =>
    intro s hs h
    rw [List.suffix_nil.mp hs] at h
    simp [show hasTripleNl [] = false from rfl] at h
  | cons a l2 ih =>
    intro s hs h
    rcases List.suffix_cons_iff.mp hs with he | hs2
    · rw [← he]; exact h
    · exact hasTripleNl_tail a l2 (ih s hs2 h)

theorem headRun_mono_pre : ∀ (s l : Str), s <+: l → headRun s ≤ headRun l := by
  intro s
  induction s with
  | nil => intro l _; simp [headRun]
  | cons a s2 ih =>
    intro l hp
    cases l with
    | nil =>
      have := hp.length_le
      simp at this
    | cons b l2 =>
      rcases List.cons_prefix_cons.mp hp with ⟨he, hp2⟩
      subst he
      by_cases ha : a = '\n'
      · subst ha
        rw [headRun_cons_nl, headRun_cons_nl]
        have := ih l2 hp2
        omega
      · rw [headRun_cons_other a s2 ha, headRun_cons_other a l2 ha]

theorem hasDoubleSpace_mono_pre : ∀ (s l : Str), s <+: l → hasDoubleSpace s = true →
    hasDoubleSpace l = true := by
  intro s
  induction s with
  | nil =>
    intro l _ h
    simp [show hasDoubleSpace [] = false from rfl] at h
  | cons a s2 ih =>
    intro l hp h
    cases l with
    | nil =>
      have := hp.length_le
      simp at this
    | cons b l2 =>
      rcases List.cons_prefix_cons.mp hp with ⟨he, hp2⟩
      subst he
      rcases (hasDoubleSpace_cons a s2).mp h with ⟨d, t, he2, h1, h2⟩ | h3
      · subst he2
        cases l2 with
        | nil =>
          have := hp2.length_le
          simp at this
        | cons d2 t2 =>
          rcases List.cons_prefix_cons.mp hp2 with ⟨he3, _⟩
          subst he3
          exact (hasDoubleSpace_cons a (d :: t2)).mpr (Or.inl ⟨d, t2, rfl, h1, h2⟩)
      · exact (hasDoubleSpace_cons a l2).mpr (Or.inr (ih l2 hp2 h3))

theorem hasTripleNl_mono_pre : ∀ (s l : Str), s <+: l → hasTripleNl s = true →
    hasTripleNl l = true := by
  intro s
  induction s with
  | nil =>
    intro l _ h
    simp [show hasTripleNl [] = false from rfl] at h
  | cons a s2 ih =>
    intro l hp h
    cases l with
    | nil =>
      have := hp.length_le
      simp at this
    | cons b l2 =>
      rcases List.cons_prefix_cons.mp hp with ⟨he, hp2⟩
      subst he
      rcases (hasTripleNl_cons a s2).mp h with ⟨h1, h2⟩ | h3
      · exact (hasTripleNl_cons a l2).mpr
          (Or.inl ⟨h1, Nat.le_trans h2 (headRun_mono_pre s2 l2 hp2)⟩)
      · exact (hasTripleNl_cons a l2).mpr (Or.inr (ih l2 hp2 h3))

theorem hasDoubleSpace_cons_false (a : Char) (l2 : Str)
    (h1 : ∀ d, l2.head? = some d → isHT a = true → isHT d = false)
    (h2 : hasDoubleSpace l2 = false) : hasDoubleSpace (a :: l2) = false := by
  by_contra hcon
  simp only [Bool.not_eq_false] at hcon
  rcases (hasDoubleSpace_cons a l2).mp hcon with ⟨d, t, he, ha, hd⟩ | hh
  · have := h1 d (by rw [he]; rfl) ha
    rw [hd] at this
    simp at this
  · rw [h2] at hh
    simp at hh

theorem hasTripleNl_cons_false (a : Char) (l2 : Str)
    (h1 : a = '\n' → headRun l2 ≤ 1) (h2 : hasTripleNl l2 = false) :
    hasTripleNl (a :: l2) = false := by
  by_contra hcon
  simp only [Bool.not_eq_false] at hcon
  rcases (hasTripleNl_cons a l2).mp hcon with ⟨ha, hr⟩ | hh
  · have := h1 ha
    omega
  · rw [h2] at hh
    simp at hh

theorem collapseWs_nil : collapseWs [] = [] := by
  rw [collapseWs]
  rw [replaceBy]

theorem collapseWs_props : ∀ (n : Nat) (l : Str), l.length ≤ n →
    hasDoubleSpace (collapseWs l) = false
      ∧ (∀ x ∈ collapseWs l, isHT x = true → x = ' ')
      ∧ (∀ x, (collapseWs l).head? = some x → isHT x = true →
          ∃ h t, l = h :: t ∧ isHT h = true) := by
  intro n
  induction n with
  | zero =>
    intro l hl
    cases l with
    | nil =>
      rw [collapseWs_nil]
      refine ⟨rfl, ?_, ?_⟩
      · intro x hx
        simp at hx
      · intro x hx
        simp at hx
    | cons c rest => simp at hl
  | succ n ih =>
    intro l hl
    cases l with
    | nil =>
      rw [collapseWs_nil]
      refine ⟨rfl, ?_, ?_⟩
      · intro x hx
        simp at hx
      · intro x hx
        simp at hx
    | cons c rest =>
      by_cases hc : isHT c
      · have hfire : htRunMatch c rest = some ((rest.takeWhile isHT).length) := by
          rw [htRunMatch, if_pos hc]
        have hcw : collapseWs (c :: rest) = ' ' :: collapseWs (rest.dropWhile isHT) := by
          show replaceBy htRunMatch [' '] (c :: rest) = _
          rw [replaceBy, hfire]
          show [' '] ++ replaceBy htRunMatch [' ']
            (rest.drop ((rest.takeWhile isHT).length)) = _
          rw [drop_takeWhile]
          rfl
        have hDlen : (rest.dropWhile isHT).length ≤ n := by
          have h1 := (List.dropWhile_suffix (l := rest) isHT).length_le
          simp at hl
          omega
        rcases ih (rest.dropWhile isHT) hDlen with ⟨ih1, ih2, ih3⟩
        have hno : ∀ x, (collapseWs (rest.dropWhile isHT)).head? = some x →
            isHT x = false := by
          intro x hx
          by_contra hcon
          simp only [Bool.not_eq_false] at hcon
          rcases ih3 x hx hcon with ⟨h0, t0, hD, hh⟩
          have := dropWhile_head_false isHT rest h0 (by rw [hD]; rfl)
          rw [hh] at this
          simp at this
        refine ⟨?_, ?_, ?_⟩
        · rw [hcw]
          exact hasDoubleSpace_cons_false ' ' _ (fun d hd _ => hno d hd) ih1
        · intro x hx hht
          rw [hcw] at hx
          rcases List.mem_cons.mp hx with he | hm
          · exact he
          · exact ih2 x hm hht
        · intro x hx _
          exact ⟨c, rest, rfl, hc⟩
      · have hnone : htRunMatch c rest = none := by
          rw [htRunMatch, if_neg hc]
        have hcw : collapseWs (c :: rest) = c :: collapseWs rest := by
          show replaceBy htRunMatch [' '] (c :: rest) = _
          rw [replaceBy, hnone]
          rfl
        rcases ih rest (by simp at hl; omega) with ⟨ih1, ih2, ih3⟩
        refine ⟨?_, ?_, ?_⟩
        · rw [hcw]
          refine hasDoubleSpace_cons_false c _ ?_ ih1
          intro d _ hcht
          exact absurd hcht (by simpa using hc)
        · intro x hx hht
          rw [hcw] at hx
          rcases List.mem_cons.mp hx with he | hm
          · subst he; exact absurd hht (by simpa using hc)
          · exact ih2 x hm hht
        · intro x hx hht
          rw [hcw] at hx
          simp at hx
          rw [← hx] at hht
          exact absurd hht (by simpa using hc)

theorem collapseNl_nil : collapseNl [] = [] := by
  rw [collapseNl]
  rw [replaceBy]

theorem collapseNl_cons_fire (c : Char) (rest : Str) (hc : c = '\n')
    (hr : 2 ≤ headRun rest) :
    collapseNl (c :: rest) = '\n' :: '\n' ::
      collapseNl (rest.dropWhile (fun x => x = '\n')) := by
  have hfire : nlRunMatch c rest = some (headRun rest) := by
    rw [nlRunMatch, if_pos]
    · rw [headRun]
    · rw [headRun] at hr
      simp [hc, hr]
  show replaceBy nlRunMatch ['\n', '\n'] (c :: rest) = _
  rw [replaceBy, hfire]
  show ['\n', '\n'] ++ replaceBy nlRunMatch ['\n', '\n'] (rest.drop (headRun rest)) = _
  rw [headRun, drop_takeWhile]
  rfl

theorem collapseNl_cons_quiet (c : Char) (rest : Str)
    (h : ¬ (c = '\n' ∧ 2 ≤ headRun rest)) :
    collapseNl (c :: rest) = c :: collapseNl rest := by
  have hnone : nlRunMatch c rest = none := by
    rw [nlRunMatch, if_neg]
    intro hcon
    simp only [Bool.and_eq_true, decide_eq_true_eq] at hcon
    exact h ⟨hcon.1, by rw [headRun]; exact hcon.2⟩
  show replaceBy nlRunMatch ['\n', '\n'] (c :: rest) = _
  rw [replaceBy, hnone]
  rfl

theorem headRun_zero_of_head (l : Str) (h : ∀ x, l.head? = some x → ¬ x = '\n') :
    headRun l = 0 := by
  cases l with
  | nil => rfl
  | cons c t => exact headRun_cons_other c t (h c rfl)

theorem collapseNl_props : ∀ (n : Nat) (l : Str), l.length ≤ n →
    hasTripleNl (collapseNl l) = false
      ∧ headRun (collapseNl l) ≤ 2
      ∧ (1 ≤ headRun (collapseNl l) → 1 ≤ headRun l)
      ∧ (2 ≤ headRun (collapseNl l) → 2 ≤ headRun l)
      ∧ (∀ x ∈ collapseNl l, x = '\n' ∨ x ∈ l) := by
  intro n
  induction n with
  | zero =>
    intro l hl
    cases l with
    | nil =>
      rw [collapseNl_nil]
      exact ⟨rfl, by simp [headRun], by simp, by simp, by simp⟩
    | cons c rest => simp at hl
  | succ n ih =>
    intro l hl
    cases l with
    | nil =>
      rw [collapseNl_nil]
      exact ⟨rfl, by simp [headRun], by simp, by simp, by simp⟩
    | cons c rest =>
      by_cases hfire : c = '\n' ∧ 2 ≤ headRun rest
      · obtain ⟨hc, hr⟩ := hfire
        subst hc
        rw [collapseNl_cons_fire '\n' rest rfl hr]
        have hDlen : (rest.dropWhile (fun x => x = '\n')).length ≤ n := by
          have h1 := (List.dropWhile_suffix (l := rest) (fun x => x = '\n')).length_le
          simp at hl
          omega
        rcases ih _ hDlen with ⟨ih1, ih2, ih3, ih4, ih5⟩
        have hD0 : headRun (rest.dropWhile (fun x => x = '\n')) = 0 := by
          apply headRun_zero_of_head
          intro x hx he
          have := dropWhile_head_false (fun x => x = '\n') rest x hx
          rw [he] at this
          simp at this
        have hout0 : headRun (collapseNl (rest.dropWhile (fun x => x = '\n'))) = 0 := by
          by_contra hcon
          have := ih3 (by omega)
          omega
        refine ⟨?_, ?_, ?_, ?_, ?_⟩
        · refine hasTripleNl_cons_false _ _ (fun _ => ?_) ?_
          · rw [headRun_cons_nl, hout0]
          · exact hasTripleNl_cons_false _ _ (fun _ => by rw [hout0]; omega) ih1
        · rw [headRun_cons_nl, headRun_cons_nl, hout0]
        · intro _
          rw [headRun_cons_nl]
          omega
        · intro _
          rw [headRun_cons_nl]
          omega
        · intro x hx
          rcases List.mem_cons.mp hx with he | hx2
          · exact Or.inl he
          rcases List.mem_cons.mp hx2 with he | hx3
          · exact Or.inl he
          rcases ih5 x hx3 with he | hm
          · exact Or.inl he
          · exact Or.inr (List.mem_cons_of_mem _
              ((List.dropWhile_suffix (fun x => x = '\n')).subset hm))
      · rw [collapseNl_cons_quiet c rest hfire]
        rcases ih rest (by simp at hl; omega) with ⟨ih1, ih2, ih3, ih4, ih5⟩
        by_cases hc : c = '\n'
        · subst hc
          have hrle : headRun rest ≤ 1 := by
            by_contra hcon
            exact hfire ⟨rfl, by omega⟩
          have hople : headRun (collapseNl rest) ≤ 1 := by
            by_contra hcon
            have := ih4 (by omega)
            omega
          refine ⟨?_, ?_, ?_, ?_, ?_⟩
          · exact hasTripleNl_cons_false _ _ (fun _ => hople) ih1
          · rw [headRun_cons_nl]
            omega
          · intro _
            rw [headRun_cons_nl]
            omega
          · intro h2
            rw [headRun_cons_nl] at h2 ⊢
            have : 1 ≤ headRun (collapseNl rest) := by omega
            have := ih3 this
            omega
          · intro x hx
            rcases List.mem_cons.mp hx with he | hx2
            · exact Or.inl he
            rcases ih5 x hx2 with he | hm
            · exact Or.inl he
            · exact Or.inr (List.mem_cons_of_mem _ hm)
        · refine ⟨?_, ?_, ?_, ?_, ?_⟩
          · exact hasTripleNl_cons_false _ _ (fun he => absurd he hc) ih1
          · rw [headRun_cons_other c _ hc]
            omega
          · rw [headRun_cons_other c _ hc]
            omega
          · rw [headRun_cons_other c _ hc]
            omega
          · intro x hx
            rcases List.mem_cons.mp hx with he | hx2
            · exact Or.inr (by simp [he])
            rcases ih5 x hx2 with he | hm
            · exact Or.inl he
            · exact Or.inr (List.mem_cons_of_mem _ hm)

theorem collapseNl_ds : ∀ (n : Nat) (l : Str), l.length ≤ n → hasDoubleSpace l = false →
    hasDoubleSpace (collapseNl l) = false
      ∧ (∀ x, (collapseNl l).head? = some x → isHT x = true → l.head? = some x) := by
  intro n
  induction n with
  | zero =>
    intro l hl _
    cases l with
    | nil =>
      rw [collapseNl_nil]
      exact ⟨rfl, by simp⟩
    | cons c rest => simp at hl
  | succ n ih =>
    intro l hl hds
    cases l with
    | nil =>
      rw [collapseNl_nil]
      exact ⟨rfl, by simp⟩
    | cons c rest =>
      have hdsr : hasDoubleSpace rest = false := by
        by_contra hcon
        simp only [Bool.not_eq_false] at hcon
        rw [(hasDoubleSpace_cons c rest).mpr (Or.inr hcon)] at hds
        simp at hds
      by_cases hfire : c = '\n' ∧ 2 ≤ headRun rest
      · obtain ⟨hc, hr⟩ := hfire
        subst hc
        rw [collapseNl_cons_fire '\n' rest rfl hr]
        have hDlen : (rest.dropWhile (fun x => x = '\n')).length ≤ n := by
          have h1 := (List.dropWhile_suffix (l := rest) (fun x => x = '\n')).length_le
          simp at hl
          omega
        have hdsD : hasDoubleSpace (rest.dropWhile (fun x => x = '\n')) = false := by
          by_contra hcon
          simp only [Bool.not_eq_false] at hcon
          rw [hasDoubleSpace_suffix rest _ (List.dropWhile_suffix _) hcon] at hdsr
          simp at hdsr
        rcases ih _ hDlen hdsD with ⟨ih1, ih2⟩
        constructor
        · refine hasDoubleSpace_cons_false _ _ (fun d _ hht => by simp [isHT] at hht) ?_
          exact hasDoubleSpace_cons_false _ _ (fun d _ hht => by simp [isHT] at hht) ih1
        · intro x hx hht
          simp at hx
          rw [← hx] at hht
          simp [isHT] at hht
      · rw [collapseNl_cons_quiet c rest hfire]
        rcases ih rest (by simp at hl; omega) hdsr with ⟨ih1, ih2⟩
        constructor
        · refine hasDoubleSpace_cons_false _ _ ?_ ih1
          intro d hd hcht
          by_contra hcon
          simp only [Bool.not_eq_false] at hcon
          have hdr := ih2 d hd hcon
          cases hrest : rest with
          | nil =>
            rw [hrest] at hdr
            simp at hdr
          | cons r0 t0 =>
            rw [hrest] at hdr
            have hr0 : r0 = d := by simpa using hdr
            have htrue : hasDoubleSpace (c :: rest) = true :=
              (hasDoubleSpace_cons c rest).mpr
                (Or.inl ⟨r0, t0, hrest, hcht, by rw [hr0]; exact hcon⟩)
            rw [hds] at htrue
            simp at htrue
        · intro x hx hht
          simp at hx
          rw [hx]
          rfl

theorem collapseWs_id : ∀ l : Str, (∀ x ∈ l, isHT x = true → x = ' ') →
    hasDoubleSpace l = false → collapseWs l = l := by
  intro l
  induction l with
  | nil => intro _ _; exact collapseWs_nil
  | cons c rest ih =>
    intro hsp hds
    have hdsr : hasDoubleSpace rest = false := by
      by_contra hcon
      simp only [Bool.not_eq_false] at hcon
      rw [(hasDoubleSpace_cons c rest).mpr (Or.inr hcon)] at hds
      simp at hds
    have hrec := ih (fun x hx => hsp x (by simp [hx])) hdsr
    by_cases hc : isHT c
    · have hcsp : c = ' ' := hsp c (by simp) hc
      have htw : rest.takeWhile isHT = [] := by
        cases hrest : rest with
        | nil => rfl
        | cons d t =>
          rw [List.takeWhile_cons]
          cases hd : isHT d with
          | false => simp
          | true =>
            exfalso
            have : hasDoubleSpace (c :: rest) = true :=
              (hasDoubleSpace_cons c rest).mpr (Or.inl ⟨d, t, hrest, hc, hd⟩)
            rw [hds] at this
            simp at this
      have hfire : htRunMatch c rest = some 0 := by
        rw [htRunMatch, if_pos hc, htw]
        rfl
      show replaceBy htRunMatch [' '] (c :: rest) = c :: rest
      rw [replaceBy, hfire]
      show ' ' :: replaceBy htRunMatch [' '] (rest.drop 0) = c :: rest
      rw [List.drop_zero, hcsp]
      rw [show replaceBy htRunMatch [' '] rest = collapseWs rest from rfl, hrec]
    · have hnone : htRunMatch c rest = none := by
        rw [htRunMatch, if_neg hc]
      show replaceBy htRunMatch [' '] (c :: rest) = c :: rest
      rw [replaceBy, hnone]
      rw [show replaceBy htRunMatch [' '] rest = collapseWs rest from rfl, hrec]

theorem hasTripleNl_tail_false (a : Char) (l2 : Str) (h : hasTripleNl (a :: l2) = false) :
    hasTripleNl l2 = false := by
  by_contra hcon
  simp only [Bool.not_eq_false] at hcon
  rw [hasTripleNl_tail a l2 hcon] at h
  simp at h

theorem nlRunMatch_none : ∀ l : Str, hasTripleNl l = false →
    ∀ c rest, (c :: rest) <:+ l → nlRunMatch c rest = none := by
  intro l
  induction l with
  | nil =>
    intro _ c rest hs
    have := hs.length_le
    simp at this
  | cons a l2 ih =>
    intro h c rest hs
    rcases List.suffix_cons_iff.mp hs with he | hs2
    · injection he with h1 h2
      subst h1
      subst h2
      rw [nlRunMatch, if_neg]
      intro hcon
      simp only [Bool.and_eq_true, decide_eq_true_eq] at hcon
      have : hasTripleNl (c :: rest) = true :=
        (hasTripleNl_cons c rest).mpr (Or.inl ⟨hcon.1, by rw [headRun]; exact hcon.2⟩)
      rw [h] at this
      simp at this
    · exact ih (hasTripleNl_tail_false a l2 h) c rest hs2

theorem collapseNl_id (l : Str) (h : hasTripleNl l = false) : collapseNl l = l := by
  show replaceBy nlRunMatch ['\n', '\n'] l = l
  exact replaceBy_id nlRunMatch ['\n', '\n'] l (nlRunMatch_none l h)

theorem stripTags_id (l : Str) (h : hasTagShaped l = false) : stripTags l = l := by
  show replaceBy tagMatch [] l = l
  exact replaceBy_id tagMatch [] l (hasTagShaped_none l h)

theorem trimStr_pre_suf (l : Str) :
    trimStr l <+: l.dropWhile isJsWs ∧ l.dropWhile isJsWs <:+ l := by
  constructor
  · have h2 : (l.dropWhile isJsWs).reverse.dropWhile isJsWs <:+ (l.dropWhile isJsWs).reverse :=
      List.dropWhile_suffix isJsWs
    have := List.reverse_prefix.mpr h2
    rw [List.reverse_reverse] at this
    exact this
  · exact List.dropWhile_suffix isJsWs

theorem trimStr_subset (l : Str) : ∀ x ∈ trimStr l, x ∈ l := by
  intro x hx
  rcases trimStr_pre_suf l with ⟨h1, h2⟩
  exact h2.subset (h1.subset hx)

theorem trimStr_ds (l : Str) (h : hasDoubleSpace l = false) :
    hasDoubleSpace (trimStr l) = false := by
  by_contra hcon
  simp only [Bool.not_eq_false] at hcon
  rcases trimStr_pre_suf l with ⟨h1, h2⟩
  rw [hasDoubleSpace_suffix l _ h2 (hasDoubleSpace_mono_pre _ _ h1 hcon)] at h
  simp at h

theorem trimStr_3nl (l : Str) (h : hasTripleNl l = false) :
    hasTripleNl (trimStr l) = false := by
  by_contra hcon
  simp only [Bool.not_eq_false] at hcon
  rcases trimStr_pre_suf l with ⟨h1, h2⟩
  rw [hasTripleNl_suffix l _ h2 (hasTripleNl_mono_pre _ _ h1 hcon)] at h
  simp at h

theorem trimStr_idem (l : Str) : trimStr (trimStr l) = trimStr l := by
  have hB : trimStr l = ((l.dropWhile isJsWs).reverse.dropWhile isJsWs).reverse := rfl
  have h1 : (trimStr l).dropWhile isJsWs = trimStr l := by
    apply dropWhile_id_of_head
    intro x hx
    rcases trimStr_pre_suf l with ⟨hp, _⟩
    cases hA2 : l.dropWhile isJsWs with
    | nil =>
      rw [hA2] at hp
      rw [List.prefix_nil.mp hp] at hx
      simp at hx
    | cons a0 t0 =>
      cases hT : trimStr l with
      | nil => rw [hT] at hx; simp at hx
      | cons b0 s0 =>
        rw [hT] at hx
        rw [hT, hA2] at hp
        rcases List.cons_prefix_cons.mp hp with ⟨he, _⟩
        have hhead : isJsWs a0 = false :=
          dropWhile_head_false isJsWs l a0 (by rw [hA2]; rfl)
        have hxb : b0 = x := by simpa using hx
        rw [← hxb, he]
        exact hhead
  have h2 : ((l.dropWhile isJsWs).reverse.dropWhile isJsWs).dropWhile isJsWs
      = (l.dropWhile isJsWs).reverse.dropWhile isJsWs := by
    apply dropWhile_id_of_head
    intro x hx
    exact dropWhile_head_false isJsWs (l.dropWhile isJsWs).reverse x hx
  show (((trimStr l).dropWhile isJsWs).reverse.dropWhile isJsWs).reverse = trimStr l
  rw [h1]
  conv_lhs =>
    rw [hB, List.reverse_reverse, h2]
  rw [← hB]

theorem pipeline_out (z : Str) :
    hasDoubleSpace (trimStr (collapseNl (collapseWs z))) = false
      ∧ hasTripleNl (trimStr (collapseNl (collapseWs z))) = false
      ∧ (∀ x ∈ trimStr (collapseNl (collapseWs z)), isHT x = true → x = ' ') := by
  rcases collapseWs_props (z.length) z (Nat.le_refl _) with ⟨w1, w2, _⟩
  rcases collapseNl_props ((collapseWs z).length) _ (Nat.le_refl _) with ⟨n1, _, _, _, n5⟩
  rcases collapseNl_ds ((collapseWs z).length) _ (Nat.le_refl _) w1 with ⟨d1, _⟩
  refine ⟨trimStr_ds _ d1, trimStr_3nl _ n1, ?_⟩
  intro x hx hht
  have hx2 := trimStr_subset _ x hx
  rcases n5 x hx2 with he | hm
  · rw [he] at hht
    simp [isHT] at hht
  · exact w2 x hm hht

theorem htmlToText_out (s : Str) :
    hasDoubleSpace (htmlToText s) = false
      ∧ hasTripleNl (htmlToText s) = false
      ∧ (∀ x ∈ htmlToText s, isHT x = true → x = ' ') :=
  pipeline_out _

/-- C8: for every input string x whose first-pass output y contains no
further HTML markup (no tag-shaped substring and none of the six named
character references), a second pass leaves y unchanged. -/
theorem claim_C8 (x y : Str) (hy : y = htmlToText x)
    (htag : hasTagShaped y = false)
    (hamp : isSubstr ('&' :: ("amp;").toList) y = false)
    (hlt : isSubstr ('&' :: ("lt;").toList) y = false)
    (hgt : isSubstr ('&' :: ("gt;").toList) y = false)
    (hquot : isSubstr ('&' :: ("quot;").toList) y = false)
    (h39 : isSubstr ('&' :: ("#39;").toList) y = false)
    (hnbsp : isSubstr ('&' :: ("nbsp;").toList) y = false) :
    htmlToText y = y := by
  obtain ⟨hds, h3nl, hsp⟩ : hasDoubleSpace y = false ∧ hasTripleNl y = false
      ∧ (∀ c ∈ y, isHT c = true → c = ' ') := by
    rw [hy]
    exact htmlToText_out x
  have hbr : replaceBy brMatch ['\n'] y = y := by
    refine replaceBy_id _ _ y ?_
    intro c rest hs
    cases hm : brMatch c rest with
    | none => rfl
    | some n => exact absurd (hasTagShaped_none y htag c rest hs) (brMatch_tag c rest n hm)
  have hcp : replaceBy (closeMatch (("/p>").toList)) ['\n', '\n'] y = y := by
    refine replaceBy_id _ _ y ?_
    intro c rest hs
    cases hm : closeMatch (("/p>").toList) c rest with
    | none => rfl
    | some n =>
      exact absurd (hasTagShaped_none y htag c rest hs)
        (closeMatch_tag (("/p>").toList) (("/p").toList) rfl (by decide) (by decide)
          c rest n hm)
  have hcdiv : replaceBy (closeMatch (("/div>").toList)) ['\n'] y = y := by
    refine replaceBy_id _ _ y ?_
    intro c rest hs
    cases hm : closeMatch (("/div>").toList) c rest with
    | none => rfl
    | some n =>
      exact absurd (hasTagShaped_none y htag c rest hs)
        (closeMatch_tag (("/div>").toList) (("/div").toList) rfl (by decide) (by decide)
          c rest n hm)
  have hcli : replaceBy (closeMatch (("/li>").toList)) ['\n'] y = y := by
    refine replaceBy_id _ _ y ?_
    intro c rest hs
    cases hm : closeMatch (("/li>").toList) c rest with
    | none => rfl
    | some n =>
      exact absurd (hasTagShaped_none y htag c rest hs)
        (closeMatch_tag (("/li>").toList) (("/li").toList) rfl (by decide) (by decide)
          c rest n hm)
  have hli : replaceBy liMatch ('-' :: [' ']) y = y := by
    refine replaceBy_id _ _ y ?_
    intro c rest hs
    cases hm : liMatch c rest with
    | none => rfl
    | some n => exact absurd (hasTagShaped_none y htag c rest hs) (liMatch_tag c rest n hm)
  have hctr : replaceBy (closeMatch (("/tr>").toList)) ['\n'] y = y := by
    refine replaceBy_id _ _ y ?_
    intro c rest hs
    cases hm : closeMatch (("/tr>").toList) c rest with
    | none => rfl
    | some n =>
      exact absurd (hasTagShaped_none y htag c rest hs)
        (closeMatch_tag (("/tr>").toList) (("/tr").toList) rfl (by decide) (by decide)
          c rest n hm)
  have hctd : replaceBy (closeMatch (("/td>").toList)) ['\t'] y = y := by
    refine replaceBy_id _ _ y ?_
    intro c rest hs
    cases hm : closeMatch (("/td>").toList) c rest with
    | none => rfl
    | some n =>
      exact absurd (hasTagShaped_none y htag c rest hs)
        (closeMatch_tag (("/td>").toList) (("/td").toList) rfl (by decide) (by decide)
          c rest n hm)
  have hst : stripTags y = y := stripTags_id y htag
  have he1 : replaceBy (entMatch '&' (("amp;").toList)) ['&'] y = y :=
    replaceBy_id _ _ y (entMatch_none '&' (("amp;").toList) y hamp)
  have he2 : replaceBy (entMatch '&' (("lt;").toList)) ['<'] y = y :=
    replaceBy_id _ _ y (entMatch_none '&' (("lt;").toList) y hlt)
  have he3 : replaceBy (entMatch '&' (("gt;").toList)) ['>'] y = y :=
    replaceBy_id _ _ y (entMatch_none '&' (("gt;").toList) y hgt)
  have he4 : replaceBy (entMatch '&' (("quot;").toList)) [quoteChar] y = y :=
    replaceBy_id _ _ y (entMatch_none '&' (("quot;").toList) y hquot)
  have he5 : replaceBy (entMatch '&' (("#39;").toList)) [Char.ofNat 39] y = y :=
    replaceBy_id _ _ y (entMatch_none '&' (("#39;").toList) y h39)
  have he6 : replaceBy (entMatch '&' (("nbsp;").toList)) [' '] y = y :=
    replaceBy_id _ _ y (entMatch_none '&' (("nbsp;").toList) y hnbsp)
  have hws : collapseWs y = y := collapseWs_id y hsp hds
  have hnl : collapseNl y = y := collapseNl_id y h3nl
  have htr : trimStr y = y := by
    rw [hy, htmlToText]
    exact trimStr_idem _
  rw [htmlToText, hbr, hcp, hcdiv, hcli, hli, hctr, hctd, hst, he1, he2, he3, he4, he5,
    he6, hws, hnl, htr]

/-- Witness for C8 at x of the bold-and-entity example: the first pass
yields the plain text, which the hypotheses hold for and a second pass
leaves unchanged. -/
theorem claim_C8_witness :
    htmlToText (("<b>Hi&amp;</b>").toList) = ("Hi&").toList
    ∧ hasTagShaped (("Hi&").toList) = false
    ∧ isSubstr ('&' :: ("amp;").toList) (("Hi&").toList) = false
    ∧ htmlToText (("Hi&").toList) = ("Hi&").toList := by
  have h1 : htmlToText (("<b>Hi&amp;</b>").toList) = ("Hi&").toList := by
    simp [htmlToText, replaceBy, brMatch, closeMatch, liMatch, tagMatch, entMatch,
      htRunMatch, nlRunMatch, stripTags, collapseWs, collapseNl, trimStr, isHT, isJsWs,
      ciPrefix, quoteChar]
  refine ⟨h1, by decide, by decide, ?_⟩
  exact claim_C8 (("<b>Hi&amp;</b>").toList) (("Hi&").toList) h1.symm (by decide)
    (by decide) (by decide) (by decide) (by decide) (by decide) (by decide)
